import Mathlib

/-!
kms-secrets: the process bootstrap, the e2e KMS helper and the reconciler design

A shallow embedding of `main.go` (flags, namespace resolution, manager
options, `getLogger` and its `ReplaceAttr` callback) and of `e2e/util/aws.go`
(`EncryptString`), together with the parts of the Go standard library they
call (`strings.TrimSpace`, `strings.LastIndex`, `unicode/utf8`,
`unicode.IsSpace`).  The reconciler that `main` wires into the manager is not
among the reviewed sources; it is modelled from the design document.

Go strings are immutable byte sequences; they are modelled as lists of byte
values.  Operating-system and service calls are modelled by explicit
environments, and every call is recorded in a call list, so that "the file is
not consulted" or "Encrypt is called exactly once" are statements about the
embedding.  A run-time panic is `none`.
-/

namespace KmsSecrets

/-! ## Go strings -/

/-- A Go `string` (or `[]byte`): a finite sequence of bytes. -/
abbrev GoString := List Nat

/-- The bytes of an ASCII string literal. -/
def ascii (s : String) : GoString := s.toList.map Char.toNat

/-! ## Constants of `log/slog` -/

/-- The constant `slog.LevelDebug`. -/
def LevelDebug : Int := -4

/-- The constant `slog.LevelInfo`. -/
def LevelInfo : Int := 0

/-! ## `EncryptString` (e2e/util/aws.go) -/

/-- The request built by `EncryptString`: `kms.EncryptInput{KeyId, Plaintext}`. -/
structure EncryptInput where
  KeyId : GoString
  Plaintext : GoString
deriving DecidableEq, Repr

/-- The part of `kms.EncryptOutput` that `EncryptString` reads.  A Go `[]byte`
may be `nil`, which is `none` here. -/
structure EncryptOutput where
  CiphertextBlob : Option GoString
deriving DecidableEq, Repr

/-- The AWS collaborators of `EncryptString`, abstract in the configuration
type `Cfg` and the error type `Err`:
`config.LoadDefaultConfig(ctx, config.WithRegion(region))` and
`kms.NewFromConfig(cfg).Encrypt(ctx, input)`. -/
structure Aws (Cfg Err : Type) where
  LoadDefaultConfig : GoString → Except Err Cfg
  Encrypt : Cfg → EncryptInput → Except Err EncryptOutput

/-- A call made by `EncryptString` to one of its collaborators. -/
inductive AwsCall where
  | loadDefaultConfig (region : GoString)
  | encrypt (input : EncryptInput)
deriving DecidableEq, Repr

/-- The Go result pair `([]byte, error)` together with the calls that were
made, in order. -/
structure EncryptResult (Err : Type) where
  bytes : Option GoString
  err : Option Err
  calls : List AwsCall

/-- The function `EncryptString(str, keyID, region string) ([]byte, error)`. -/
def EncryptString {Cfg Err : Type} (aws : Aws Cfg Err) (str keyID region : GoString) :
    EncryptResult Err :=
  match aws.LoadDefaultConfig region with
  | .error err => ⟨none, some err, [.loadDefaultConfig region]⟩
  | .ok cfg =>
    let input : EncryptInput := ⟨keyID, str⟩
    match aws.Encrypt cfg input with
    | .error err => ⟨none, some err, [.loadDefaultConfig region, .encrypt input]⟩
    | .ok res => ⟨res.CiphertextBlob, none, [.loadDefaultConfig region, .encrypt input]⟩

/-- The `Encrypt` requests among a list of calls. -/
def encryptCalls : List AwsCall → List EncryptInput
  | [] => []
  | .encrypt input :: rest => input :: encryptCalls rest
  | .loadDefaultConfig _ :: rest => encryptCalls rest


/-! ## String primitives used by `getLogger`'s `ReplaceAttr` -/

/-- The loop of `strings.LastIndex`: the greatest start index not above the
given one at which `substr` occurs in `s`, or -1. -/
def lastIndexFrom (s substr : GoString) : Nat → Int
  | 0 => if substr.isPrefixOf s then 0 else -1
  | i + 1 =>
    if substr.isPrefixOf (s.drop (i + 1)) then ((i + 1 : Nat) : Int)
    else lastIndexFrom s substr i

/-- The function `strings.LastIndex(s, substr)`: the index of the last instance
of `substr` in `s`, or -1 if `substr` is not present in `s`. -/
def LastIndex (s substr : GoString) : Int :=
  if substr.length ≤ s.length then lastIndexFrom s substr (s.length - substr.length)
  else -1

/-- The Go slice expression `s[lo:hi]` on a string: the bytes from index `lo`
up to index `hi`; a run-time panic (`none`) unless `0 ≤ lo ≤ hi ≤ len(s)`. -/
def slice (s : GoString) (lo hi : Int) : Option GoString :=
  if 0 ≤ lo ∧ lo ≤ hi ∧ hi ≤ (s.length : Int) then
    some ((s.drop lo.toNat).take (hi - lo).toNat)
  else none

/-! ## `getLogger` (main.go, lines 108-132) and its `ReplaceAttr` callback -/

/-- A `slog.Value`: either of string kind, or of any other kind, in which case
only its `fmt.Sprint` rendering matters to the callback. -/
inductive Value where
  | string (s : GoString)
  | other (formatted : GoString)
deriving DecidableEq, Repr

/-- The method `Value.String()`: the string itself for a value of string kind,
the formatted rendering otherwise; it never panics. -/
def Value.String : Value → GoString
  | .string s => s
  | .other formatted => formatted

/-- A `slog.Attr`: a key and a value. -/
structure Attr where
  Key : GoString
  Value : Value
deriving DecidableEq, Repr

/-- The zero attribute `slog.Attr{}`: empty key, nil value of kind Any. -/
def Attr.zero : Attr := ⟨[], .other (ascii ("<nil>"))⟩

/-- The constant `slog.TimeKey`. -/
def TimeKey : GoString := ascii ("time")

/-- The constant `slog.LevelKey`. -/
def LevelKey : GoString := ascii ("level")

/-- The constant `slog.SourceKey`. -/
def SourceKey : GoString := ascii ("source")

/-- The `ReplaceAttr` callback installed by `getLogger`; `none` is a run-time
panic from an out-of-range slice expression.  `ToLower` stands for
`strings.ToLower`. -/
def ReplaceAttr (ToLower : GoString → GoString) (groups : List GoString) (a : Attr) :
    Option Attr :=
  if a.Key = TimeKey ∧ groups.length = 0 then
    some Attr.zero
  else do
    let a ← (if a.Key = SourceKey then do
        let s := a.Value.String
        let i := LastIndex s (ascii ("/"))
        let j := LastIndex s (ascii (" "))
        let base ← slice s (i + 1) j
        let line ← slice s (j + 1) ((s.length : Int) - 1)
        pure { a with Value := .string (base ++ ascii (":") ++ line) }
      else pure a)
    let a := if a.Key = LevelKey then
        { a with Value := .string (ToLower a.Value.String) } else a
    pure a

/-- The fields of `slog.HandlerOptions` that `getLogger` sets. -/
structure HandlerOptions where
  Level : Int
  AddSource : Bool
  ReplaceAttr : List GoString → Attr → Option Attr

/-- The function `getLogger(logLevel string) *slog.Logger` (main.go, lines
108-132): the options of the text handler behind the returned logger.
`ToLower` stands for `strings.ToLower`. -/
def getLogger (ToLower : GoString → GoString) (logLevel : GoString) : HandlerOptions :=
  let l := if logLevel = ascii ("debug") then LevelDebug else LevelInfo
  { Level := l
    AddSource := decide (logLevel = ascii ("debug"))
    ReplaceAttr := ReplaceAttr ToLower }

/-- The default value of the `--log-level` flag (main.go, line 56). -/
def defaultLogLevel : GoString := ascii ("info")

/-- The text of `file` after its last '/' (the whole of `file` when it has
none). -/
def afterLastSlash (file : GoString) : GoString :=
  (file.reverse.takeWhile (fun b => b != 47)).reverse

/-- The rendering `&{function file line}` that `fmt.Sprint` gives a
`*slog.Source`. -/
def sourceRendering (function file line : GoString) : GoString :=
  ascii ("&\x7b") ++ function ++ ascii (" ") ++ file ++ ascii (" ") ++ line ++ ascii ("\x7d")


/-! ## Package `unicode/utf8` -/

/-- The constant `utf8.RuneError`, the replacement character U+FFFD. -/
def RuneError : Nat := 0xFFFD

/-- The constant `utf8.RuneSelf`: bytes below it are single-byte runes. -/
def RuneSelf : Nat := 0x80

/-- The constant `utf8.UTFMax`: the longest encoding of a rune, in bytes. -/
def UTFMax : Nat := 4

/-- The entry `xx` of `utf8.first`: invalid, size 1. -/
def xx : Nat := 0xF1

/-- The entry `as` of `utf8.first`: ASCII, size 1. -/
def as : Nat := 0xF0

/-- The table `utf8.first`: information about the first byte of an encoding
(high nibble: index into `acceptRanges`; low three bits: size). -/
def first (b : Nat) : Nat :=
  if b < 0x80 then as
  else if b < 0xC2 then xx
  else if b < 0xE0 then 0x02
  else if b = 0xE0 then 0x13
  else if b < 0xED then 0x03
  else if b = 0xED then 0x23
  else if b < 0xF0 then 0x03
  else if b = 0xF0 then 0x34
  else if b < 0xF4 then 0x04
  else if b = 0xF4 then 0x44
  else xx

/-- The table `utf8.acceptRanges`: the range `(lo, hi)` of valid second bytes. -/
def acceptRanges (i : Nat) : Nat × Nat :=
  if i = 0 then (0x80, 0xBF)
  else if i = 1 then (0xA0, 0xBF)
  else if i = 2 then (0x80, 0x9F)
  else if i = 3 then (0x90, 0xBF)
  else if i = 4 then (0x80, 0x8F)
  else (0, 0)

/-- The function `utf8.DecodeRuneInString(s)`: the first rune of `s` and its
width in bytes; `(RuneError, 0)` for the empty string and `(RuneError, 1)` for
an invalid encoding. -/
def DecodeRuneInString (s : GoString) : Nat × Nat :=
  let n := s.length
  if n < 1 then (RuneError, 0) else
  let s0 := s.getD 0 0
  let x := first s0
  if x ≥ as then
    -- the mask `rune(x) << 31 >> 31` is all ones exactly when `x == xx`
    (if x = xx then RuneError else s0, 1)
  else
  let sz := x &&& 7
  let accept := acceptRanges (x >>> 4)
  if n < sz then (RuneError, 1) else
  let s1 := s.getD 1 0
  if s1 < accept.1 ∨ accept.2 < s1 then (RuneError, 1) else
  if sz ≤ 2 then (((s0 &&& 0x1F) <<< 6) ||| (s1 &&& 0x3F), 2) else
  let s2 := s.getD 2 0
  if s2 < 0x80 ∨ 0xBF < s2 then (RuneError, 1) else
  if sz ≤ 3 then
    (((s0 &&& 0x0F) <<< 12) ||| ((s1 &&& 0x3F) <<< 6) ||| (s2 &&& 0x3F), 3) else
  let s3 := s.getD 3 0
  if s3 < 0x80 ∨ 0xBF < s3 then (RuneError, 1) else
  (((s0 &&& 0x07) <<< 18) ||| ((s1 &&& 0x3F) <<< 12) ||| ((s2 &&& 0x3F) <<< 6)
    ||| (s3 &&& 0x3F), 4)

/-- The function `utf8.RuneStart(b)`: `b` is not a continuation byte. -/
def RuneStart (b : Nat) : Bool := (b &&& 0xC0) != 0x80

/-- The backward scan of `utf8.DecodeLastRuneInString`:
`for start--; start >= lim; start-- { if RuneStart(s[start]) { break } }`,
entered with `start` already decremented. -/
def lastRuneStart (s : GoString) (lim : Int) : Nat → Int → Int
  | 0, start => start
  | fuel + 1, start =>
    if start ≥ lim then
      if RuneStart (s.getD start.toNat 0) then start
      else lastRuneStart s lim fuel (start - 1)
    else start

/-- The function `utf8.DecodeLastRuneInString(s)`: the last rune of `s` and its
width in bytes. -/
def DecodeLastRuneInString (s : GoString) : Nat × Nat :=
  let stop : Int := s.length
  if stop = 0 then (RuneError, 0) else
  let start := stop - 1
  let r := s.getD start.toNat 0
  if r < RuneSelf then (r, 1) else
  let lim := stop - UTFMax
  let lim := if lim < 0 then 0 else lim
  let start := lastRuneStart s lim UTFMax (start - 1)
  let start := if start < 0 then 0 else start
  let d := DecodeRuneInString ((s.drop start.toNat).take (stop - start).toNat)
  if start + d.2 ≠ stop then (RuneError, 1) else d

/-! ## Package `unicode` -/

/-- The constant `unicode.MaxLatin1`. -/
def MaxLatin1 : Nat := 0xFF

/-- The range table `unicode.White_Space` (16-bit ranges `(lo, hi)`, all of
stride 1); its first `LatinOffset = 4` entries lie within Latin-1. -/
def White_Space : List (Nat × Nat) :=
  [(0x0009, 0x000d), (0x0020, 0x0020), (0x0085, 0x0085), (0x00a0, 0x00a0),
   (0x1680, 0x1680), (0x2000, 0x200a), (0x2028, 0x2029), (0x202f, 0x202f),
   (0x205f, 0x205f), (0x3000, 0x3000)]

/-- The function `unicode.isExcludingLatin(White_Space, r)`: membership of `r`
in the table entries after the Latin-1 ones. -/
def isExcludingLatin (table : List (Nat × Nat)) (latinOffset : Nat) (r : Nat) : Bool :=
  (table.drop latinOffset).any (fun range => decide (range.1 ≤ r ∧ r ≤ range.2))

/-- The function `unicode.IsSpace(r)`: `r` is a space character as defined by
Unicode's White Space property. -/
def IsSpace (r : Nat) : Bool :=
  if r ≤ MaxLatin1 then
    decide (r = 9 ∨ r = 10 ∨ r = 11 ∨ r = 12 ∨ r = 13 ∨ r = 32 ∨ r = 0x85 ∨ r = 0xA0)
  else isExcludingLatin White_Space 4 r

/-! ## Package `strings`: trimming -/

/-- The table `strings.asciiSpace`: 1 for the six ASCII space bytes. -/
def asciiSpace (c : Nat) : Nat :=
  if c = 9 ∨ c = 10 ∨ c = 11 ∨ c = 12 ∨ c = 13 ∨ c = 32 then 1 else 0

/-- The loop of `strings.indexFunc`, a `range` loop over the runes of `s`
starting at byte index `i`. -/
def indexFuncFrom (s : GoString) (f : Nat → Bool) (truth : Bool) : Nat → Nat → Int
  | 0, _ => -1
  | fuel + 1, i =>
    if i < s.length then
      let d := DecodeRuneInString (s.drop i)
      if f d.1 == truth then (i : Int)
      else indexFuncFrom s f truth fuel (i + d.2)
    else -1

/-- The function `strings.indexFunc(s, f, truth)`: the index of the first rune
`r` of `s` with `f(r) == truth`, or -1. -/
def indexFunc (s : GoString) (f : Nat → Bool) (truth : Bool) : Int :=
  indexFuncFrom s f truth s.length 0

/-- The loop of `strings.lastIndexFunc`:
`for i := len(s); i > 0; { r, size := DecodeLastRuneInString(s[0:i]); i -= size; ... }`. -/
def lastIndexFuncFrom (s : GoString) (f : Nat → Bool) (truth : Bool) : Nat → Nat → Int
  | 0, _ => -1
  | fuel + 1, i =>
    if i > 0 then
      let d := DecodeLastRuneInString (s.take i)
      if f d.1 == truth then ((i - d.2 : Nat) : Int)
      else lastIndexFuncFrom s f truth fuel (i - d.2)
    else -1

/-- The function `strings.lastIndexFunc(s, f, truth)`: the index of the last
rune `r` of `s` with `f(r) == truth`, or -1. -/
def lastIndexFunc (s : GoString) (f : Nat → Bool) (truth : Bool) : Int :=
  lastIndexFuncFrom s f truth s.length s.length

/-- The function `strings.TrimLeftFunc(s, f)`. -/
def TrimLeftFunc (s : GoString) (f : Nat → Bool) : GoString :=
  let i := indexFunc s f false
  if i = -1 then [] else s.drop i.toNat

/-- The function `strings.TrimRightFunc(s, f)`. -/
def TrimRightFunc (s : GoString) (f : Nat → Bool) : GoString :=
  let i := lastIndexFunc s f false
  let i :=
    if i ≥ 0 ∧ s.getD i.toNat 0 ≥ RuneSelf then
      i + (DecodeRuneInString (s.drop i.toNat)).2
    else i + 1
  s.take i.toNat

/-- The function `strings.TrimFunc(s, f)`. -/
def TrimFunc (s : GoString) (f : Nat → Bool) : GoString :=
  TrimRightFunc (TrimLeftFunc s f) f

/-- The second loop of `strings.TrimSpace`: look for the first ASCII non-space
byte from the end of `s[start:stop]`. -/
def trimSpaceStop (s : GoString) (start : Nat) : Nat → Nat → GoString
  | 0, stop => (s.drop start).take (stop - start)
  | fuel + 1, stop =>
    if stop > start then
      let c := s.getD (stop - 1) 0
      if c ≥ RuneSelf then TrimRightFunc ((s.drop start).take (stop - start)) IsSpace
      else if asciiSpace c = 0 then (s.drop start).take (stop - start)
      else trimSpaceStop s start fuel (stop - 1)
    else (s.drop start).take (stop - start)

/-- The first loop of `strings.TrimSpace`: look for the first ASCII non-space
byte from the start, then run the second loop. -/
def trimSpaceStart (s : GoString) : Nat → Nat → GoString
  | 0, start => trimSpaceStop s start s.length s.length
  | fuel + 1, start =>
    if start < s.length then
      let c := s.getD start 0
      if c ≥ RuneSelf then TrimFunc (s.drop start) IsSpace
      else if asciiSpace c = 0 then trimSpaceStop s start s.length s.length
      else trimSpaceStart s fuel (start + 1)
    else trimSpaceStop s start s.length s.length

/-- The function `strings.TrimSpace(s)`: `s` with all leading and trailing white
space removed, as defined by Unicode. -/
def TrimSpace (s : GoString) : GoString :=
  trimSpaceStart s s.length 0

/-- The UTF-8 encodings of the code points with Unicode's White Space
property. -/
def whiteSpaceEncodings : List GoString :=
  [[0x09], [0x0A], [0x0B], [0x0C], [0x0D], [0x20], [0xC2, 0x85], [0xC2, 0xA0],
   [0xE1, 0x9A, 0x80],
   [0xE2, 0x80, 0x80], [0xE2, 0x80, 0x81], [0xE2, 0x80, 0x82], [0xE2, 0x80, 0x83],
   [0xE2, 0x80, 0x84], [0xE2, 0x80, 0x85], [0xE2, 0x80, 0x86], [0xE2, 0x80, 0x87],
   [0xE2, 0x80, 0x88], [0xE2, 0x80, 0x89], [0xE2, 0x80, 0x8A],
   [0xE2, 0x80, 0xA8], [0xE2, 0x80, 0xA9], [0xE2, 0x80, 0xAF], [0xE2, 0x81, 0x9F],
   [0xE3, 0x80, 0x80]]

/-- A string that contains only white space: a concatenation of encodings of
white-space code points (the empty string included). -/
inductive OnlyWhiteSpace : GoString → Prop where
  | nil : OnlyWhiteSpace []
  | cons (w s : GoString) (hw : w ∈ whiteSpaceEncodings) (hs : OnlyWhiteSpace s) :
      OnlyWhiteSpace (w ++ s)

/-- No white-space encoding starts the string. -/
def NoLeadingSpace (r : GoString) : Prop := ∀ w ∈ whiteSpaceEncodings, ¬ w <+: r

/-- No white-space encoding ends the string. -/
def NoTrailingSpace (r : GoString) : Prop := ∀ w ∈ whiteSpaceEncodings, ¬ w <:+ r

/-! ## `main` (main.go, lines 47-84): flags, namespace resolution, manager options -/

/-- The command-line flags of `main`, after `pflag.Parse()`. -/
structure Flags where
  metricsAddr : GoString
  enableLeaderElection : Bool
  namespaced : Bool
  logLevel : GoString
deriving DecidableEq, Repr

/-- The flag defaults declared in `main`: `--metrics-addr=":8080"`,
`--enable-leader-election=false`, `--namespaced=false`, `--log-level="info"`. -/
def defaultFlags : Flags :=
  { metricsAddr := ascii (":8080"), enableLeaderElection := false, namespaced := false,
    logLevel := defaultLogLevel }

/-- The operating system as `main` sees it: `os.Getenv` (the empty string for an
unset variable) and `os.ReadFile` (`none` when the call returns an error). -/
structure Os where
  Getenv : GoString → GoString
  ReadFile : GoString → Option GoString

/-- A call made by `main` to the operating system. -/
inductive OsCall where
  | getenv (name : GoString)
  | readFile (path : GoString)
deriving DecidableEq, Repr

/-- The fields of `ctrl.Options` set by `main` (the scheme is a package-level
constant). -/
structure Options where
  MetricsBindAddress : GoString
  Port : Nat
  LeaderElection : Bool
  LeaderElectionID : GoString
  Namespace : GoString
deriving DecidableEq, Repr

/-- How the start-up part of `main` ends: with `logger.Error(msg); os.Exit(code)`
before any manager exists, or with the call `ctrl.NewManager(cfg, opts)`. -/
inductive Startup where
  | exit (logged : GoString) (code : Nat)
  | newManager (opts : Options)
deriving DecidableEq, Repr

/-- A run of the start-up part of `main`: the operating-system calls made, in
order, and how it ends. -/
structure MainRun where
  calls : List OsCall
  outcome : Startup
deriving DecidableEq, Repr

/-- The name of the environment variable read by `main`. -/
def podNamespaceVar : GoString := ascii ("POD_NAMESPACE")

/-- The path of the service-account namespace file read by `main`. -/
def namespaceFile : GoString :=
  ascii ("/var/run/secrets/kubernetes.io/serviceaccount/namespace")

/-- The message logged by `main` when no namespace can be determined. -/
def noNamespaceMessage : GoString :=
  ascii ("Mode is namespaced, but unable to determine own namespace name, please set env 'POD_NAMESPACE'")

/-- The literal `ctrl.Options{...}` of `main` for the namespace `ns`. -/
def managerOptions (flags : Flags) (ns : GoString) : Options :=
  { MetricsBindAddress := flags.metricsAddr
    Port := 9443
    LeaderElection := flags.enableLeaderElection
    LeaderElectionID := ascii ("e976aec6.h3poteto.dev")
    Namespace := ns }

/-- The namespace resolution of `main` (lines 62-70) in namespaced mode: the
value of `ns` before the emptiness check, and the operating-system calls. -/
def namespacedNs (os : Os) : GoString × List OsCall :=
  let ns := os.Getenv podNamespaceVar
  if ns.length = 0 then
    -- Fall back to the namespace associated with the service account token
    match os.ReadFile namespaceFile with
    | some data => (TrimSpace data, [.getenv podNamespaceVar, .readFile namespaceFile])
    | none => (ns, [.getenv podNamespaceVar, .readFile namespaceFile])
  else (ns, [.getenv podNamespaceVar])

/-- The function `main`, from `pflag.Parse()` up to the call of
`ctrl.NewManager`; the logger built by `getLogger(*logLevel)` is used for the
error message only. -/
def main (flags : Flags) (os : Os) : MainRun :=
  if flags.namespaced then
    let r := namespacedNs os
    if r.1.length = 0 then
      ⟨r.2, .exit noNamespaceMessage 1⟩
    else
      ⟨r.2, .newManager (managerOptions flags r.1)⟩
  else
    ⟨[], .newManager (managerOptions flags [])⟩

/-- An operating system with `POD_NAMESPACE` set to `podNs` (empty: unset) and
the given result of reading the service-account namespace file. -/
def osWith (podNs : GoString) (file : Option GoString) : Os :=
  { Getenv := fun name => if name = podNamespaceVar then podNs else []
    ReadFile := fun path => if path = namespaceFile then file else none }

/-- Flags with `--namespaced` set and every other flag at its default. -/
def namespacedFlags : Flags := { defaultFlags with namespaced := true }

/-- An operating system with `POD_NAMESPACE` unset and a readable namespace
file that holds a single newline. -/
def blankFileOs : Os := osWith [] (some [10])

/-! ## The reconciler (`controllers.KMSSecretReconciler`), modelled from the spec

`main` wires `controllers.KMSSecretReconciler` into the manager; the package
`controllers` itself is not among the reviewed sources.  The definitions of
this section follow the design document (sections 3, 4.1-4.4 and 7). -/

/-- Modelled from the spec: a data entry of a `KMSSecret` (section 3),
`{fieldName, ciphertextBlob, keyID, region}`; the type `DataEntry` of the
absent package `api/v1beta1`. -/
structure DataEntry where
  fieldName : GoString
  ciphertextBlob : GoString
  keyID : GoString
  region : GoString
deriving DecidableEq, Repr

/-- Modelled from the spec: the reason of a `Ready=False` condition (section 7):
`Retryable`, `Terminal`, or `InvalidSpec` for a validation error; the absent
reconciler's condition reasons. -/
inductive Reason where
  | Retryable
  | Terminal
  | InvalidSpec
deriving DecidableEq, Repr

/-- Modelled from the spec: the `Ready` condition of the status (section 3),
with its reason and the failing field it names; the absent status type. -/
inductive Ready where
  | unknown
  | isTrue
  | isFalse (reason : Reason) (field : Option GoString)
deriving DecidableEq, Repr

/-- Modelled from the spec: the status of a `KMSSecret` (section 3):
`observedGeneration`, per-field `lastCiphertextFingerprint`, conditions; the
absent status type. -/
structure Status where
  observedGeneration : Nat
  fingerprints : List (GoString × GoString)
  ready : Ready
deriving DecidableEq, Repr

/-- Modelled from the spec: a `KMSSecret` resource (section 3) with its spec
generation, data entries, finalizer token, deletion timestamp and status; the
absent custom-resource type. -/
structure KMSSecret where
  generation : Nat
  dataEntries : List DataEntry
  finalizer : Bool
  deletionTimestamp : Bool
  status : Status
deriving DecidableEq, Repr

/-- Modelled from the spec: the data map of the generated secret (section 3),
field name to plaintext; the absent native secret object. -/
abbrev SecretData := List (GoString × GoString)

/-- Modelled from the spec: the part of the cluster one reconcile pass works on:
the `KMSSecret` (absent once garbage-collected) and its generated secret
(absent until created); the absent Cluster API state. -/
structure Cluster where
  kmsSecret : Option KMSSecret
  secret : Option SecretData
deriving DecidableEq, Repr

/-- Modelled from the spec: the answer of the Decryption Gateway (sections 6
and 7): a plaintext, a throttled/transient error (retryable), or an
access-denied/malformed-ciphertext error (terminal); the absent gateway. -/
inductive DecryptOutcome where
  | plaintext (p : GoString)
  | transient
  | denied
deriving DecidableEq, Repr

/-- Modelled from the spec: the external collaborators of one reconcile pass
(section 2): the Decryption Gateway, the content hash used as ciphertext
fingerprint, and whether the Cluster API fails the delete or the write of the
generated secret in this pass; the absent gateway and API client. -/
structure Collaborators where
  decrypt : GoString → GoString → GoString → DecryptOutcome
  fingerprint : GoString → GoString
  deleteFails : Bool
  writeFails : Bool

/-- Modelled from the spec: the Decryption Cache (section 4.2), a map from
`(ciphertextFingerprint, keyID)` to plaintext; the absent cache. -/
abbrev Cache := List ((GoString × GoString) × GoString)

/-- Modelled from the spec: the outcome of deleting the generated secret
(section 4.4): deleted, already absent (success), or failed; the absent
Cluster API client. -/
inductive DeleteOutcome where
  | deleted
  | notFound
  | failed
deriving DecidableEq, Repr

/-- Modelled from the spec: a call made during one reconcile pass to the
Decryption Gateway or to the Cluster API (section 5: the only blocking
operations); the absent gateway and API client. -/
inductive Call where
  | decrypt (field : GoString) (outcome : DecryptOutcome)
  | addFinalizer
  | createSecret (data : SecretData)
  | patchSecret (data : SecretData)
  | writeFailed
  | deleteSecret (outcome : DeleteOutcome)
  | removeFinalizer
deriving DecidableEq, Repr

/-- Modelled from the spec: the result of `reconcile(resourceKey)` (section
4.1): `{Synced, Requeue(after duration), TerminalFailure}`; the absent
reconciler's return value. -/
inductive Result where
  | Synced
  | Requeue
  | TerminalFailure
deriving DecidableEq, Repr

/-- Modelled from the spec: what one reconcile pass leaves behind: the cluster,
the cache, the calls made in order, and the result; the absent reconciler. -/
structure Pass where
  cluster : Cluster
  cache : Cache
  calls : List Call
  result : Result
deriving DecidableEq, Repr

/-- Modelled from the spec: the decrypt phase's outcome (section 4.1): all
fields decrypted (or unchanged), or the first failure with its reason and
field; the absent reconciler's decrypt loop. -/
inductive Fields where
  | ok (data : SecretData)
  | failed (reason : Reason) (field : GoString)
deriving DecidableEq, Repr

/-- Modelled from the spec: the decrypt phase with its cache and gateway
calls; the absent reconciler's decrypt loop. -/
structure DecryptPhase where
  cache : Cache
  calls : List Call
  fields : Fields
deriving DecidableEq, Repr

/-- Modelled from the spec: prepend a field to a successful outcome; a failure
stays as it is; the absent reconciler's decrypt loop. -/
def Fields.add (field : GoString × GoString) : Fields → Fields
  | .ok data => .ok (field :: data)
  | .failed reason f => .failed reason f

/-- Modelled from the spec: the normal path's loop over the data entries
(section 4.1): "for each data entry, compute its ciphertext fingerprint; if the
per-field fingerprint matches status' last recorded fingerprint AND the target
secret currently contains a consistent value for that field, skip decryption;
otherwise decrypt (section 4.2)": look the fingerprint up in the cache and, on
a miss, call the gateway and store the result.  A terminal failure stops the
whole reconcile, a retryable failure returns Requeue; the absent reconciler's
decrypt loop. -/
def decryptEntries (env : Collaborators) (status : Status) (secret : Option SecretData) :
    List DataEntry → Cache → DecryptPhase
  | [], cache => ⟨cache, [], .ok []⟩
  | e :: rest, cache =>
    let fp := env.fingerprint e.ciphertextBlob
    let current : Option GoString :=
      if status.fingerprints.lookup e.fieldName = some fp then
        secret.bind (fun data => data.lookup e.fieldName)
      else none
    match current with
    | some value =>
      let r := decryptEntries env status secret rest cache
      ⟨r.cache, r.calls, r.fields.add (e.fieldName, value)⟩
    | none =>
      match cache.lookup (fp, e.keyID) with
      | some p =>
        let r := decryptEntries env status secret rest cache
        ⟨r.cache, r.calls, r.fields.add (e.fieldName, p)⟩
      | none =>
        match env.decrypt e.ciphertextBlob e.keyID e.region with
        | .plaintext p =>
          let r := decryptEntries env status secret rest (((fp, e.keyID), p) :: cache)
          ⟨r.cache, .decrypt e.fieldName (.plaintext p) :: r.calls,
            r.fields.add (e.fieldName, p)⟩
        | .transient =>
          ⟨cache, [.decrypt e.fieldName .transient], .failed .Retryable e.fieldName⟩
        | .denied =>
          ⟨cache, [.decrypt e.fieldName .denied], .failed .Terminal e.fieldName⟩

/-- Modelled from the spec: validation of the spec (section 7): an empty
ciphertext or a duplicate field name is a `ValidationError`; the absent
reconciler's validation. -/
def validSpec (entries : List DataEntry) : Bool :=
  entries.all (fun e => e.ciphertextBlob ≠ []) &&
    decide ((entries.map (fun e => e.fieldName)).Nodup)

/-- Modelled from the spec: `computeDesired` (section 4.3): the data map of the
desired secret, sorted by field name; the absent Diff & Apply Engine. -/
def computeDesired (fields : SecretData) : SecretData :=
  fields.insertionSort (fun a b => a.1 ≤ b.1)

/-- Modelled from the spec: the per-field fingerprints recorded in the status
after a successful pass (section 4.1); the absent reconciler. -/
def recordFingerprints (env : Collaborators) (entries : List DataEntry) :
    List (GoString × GoString) :=
  entries.map (fun e => (e.fieldName, env.fingerprint e.ciphertextBlob))

/-- Modelled from the spec: the Finalizer & Cleanup Manager (section 4.4), for a
resource that carries the finalizer and a deletion timestamp: "delete the
generated secret (idempotent: deletion of an already-absent object is
success), then remove the finalizer token"; a failed delete is a retryable
Cluster API error (section 7) and leaves the finalizer in place; the absent
reconciler's cleanup path. -/
def cleanup (env : Collaborators) (cache : Cache) (c : Cluster) (r : KMSSecret) : Pass :=
  if env.deleteFails then
    ⟨{ c with kmsSecret := some { r with status :=
          { r.status with ready := .isFalse .Retryable none } } },
      cache, [.deleteSecret .failed], .Requeue⟩
  else
    let outcome : DeleteOutcome := if c.secret.isSome then .deleted else .notFound
    ⟨{ kmsSecret := some { r with finalizer := false }, secret := none },
      cache, [.deleteSecret outcome, .removeFinalizer], .Synced⟩

/-- Modelled from the spec: the normal path of the Reconcile State Machine
(sections 4.1, 4.3, 4.4): ensure the finalizer, validate, decrypt, and only
when every field is available apply the desired secret (create, patch or
no-op) and record generation, fingerprints and `Ready=True`; the absent
reconciler's normal path. -/
def normalPath (env : Collaborators) (cache : Cache) (c : Cluster) (r : KMSSecret) : Pass :=
  let pre : List Call := if r.finalizer then [] else [.addFinalizer]
  let r := { r with finalizer := true }
  if ¬ validSpec r.dataEntries then
    ⟨{ c with kmsSecret := some { r with status :=
          { r.status with ready := .isFalse .InvalidSpec none } } },
      cache, pre, .TerminalFailure⟩
  else
    let d := decryptEntries env r.status c.secret r.dataEntries cache
    match d.fields with
    | .failed .Retryable field =>
      ⟨{ c with kmsSecret := some { r with status :=
            { r.status with ready := .isFalse .Retryable (some field) } } },
        d.cache, pre ++ d.calls, .Requeue⟩
    | .failed reason field =>
      ⟨{ c with kmsSecret := some { r with status :=
            { r.status with ready := .isFalse reason (some field) } } },
        d.cache, pre ++ d.calls, .TerminalFailure⟩
    | .ok fields =>
      let desired := computeDesired fields
      let synced : KMSSecret := { r with status :=
        { observedGeneration := r.generation
          fingerprints := recordFingerprints env r.dataEntries
          ready := .isTrue } }
      if c.secret = some desired then
        ⟨{ c with kmsSecret := some synced }, d.cache, pre ++ d.calls, .Synced⟩
      else if env.writeFails then
        ⟨{ c with kmsSecret := some { r with status :=
              { r.status with ready := .isFalse .Retryable none } } },
          d.cache, pre ++ d.calls ++ [.writeFailed], .Requeue⟩
      else
        let write : Call :=
          if c.secret.isSome then .patchSecret desired else .createSecret desired
        ⟨{ kmsSecret := some synced, secret := some desired },
          d.cache, pre ++ d.calls ++ [write], .Synced⟩

/-- Modelled from the spec: `reconcile(resourceKey)` (section 4.1): re-fetch the
resource; a resource that is gone, or that is being deleted without the
finalizer, is a no-op success; a resource with a deletion timestamp and the
finalizer goes to the cleanup path; every other resource takes the normal
path; the absent reconciler's `Reconcile`. -/
def reconcile (env : Collaborators) (cache : Cache) (c : Cluster) : Pass :=
  match c.kmsSecret with
  | none => ⟨c, cache, [], .Synced⟩
  | some r =>
    if r.deletionTimestamp then
      if r.finalizer then cleanup env cache c r
      else ⟨c, cache, [], .Synced⟩
    else normalPath env cache c r

/-- Modelled from the spec: the cluster's garbage collection of a `KMSSecret`
(section 3, lifecycle): a resource with a deletion timestamp disappears once
it carries no finalizer; the absent cluster platform. -/
def garbageCollect (c : Cluster) : Cluster :=
  match c.kmsSecret with
  | none => c
  | some r =>
    if r.deletionTimestamp ∧ r.finalizer = false then { c with kmsSecret := none } else c

/-- The calls of a pass that write the generated secret. -/
def secretWrites : List Call → List Call
  | [] => []
  | .createSecret data :: rest => .createSecret data :: secretWrites rest
  | .patchSecret data :: rest => .patchSecret data :: secretWrites rest
  | _ :: rest => secretWrites rest

/-- Modelled from the spec: the skip rule of section 4.1 applies to an entry:
"the per-field fingerprint matches status' last recorded fingerprint AND the
target secret currently contains a consistent value for that field"; the
absent reconciler's decrypt loop. -/
def unchanged (env : Collaborators) (status : Status) (secret : Option SecretData)
    (e : DataEntry) : Bool :=
  decide (status.fingerprints.lookup e.fieldName = some (env.fingerprint e.ciphertextBlob)) &&
    (secret.bind (fun data => data.lookup e.fieldName)).isSome

/-- The key of an entry in the Decryption Cache: its ciphertext fingerprint and
its key identifier. -/
def cacheKey (env : Collaborators) (e : DataEntry) : GoString × GoString :=
  (env.fingerprint e.ciphertextBlob, e.keyID)

/-- The `Ready` condition a pass leaves on the resource. -/
def readyAfter (p : Pass) : Option Ready :=
  p.cluster.kmsSecret.map (fun r => r.status.ready)

/-- The state of a resource under deletion: it still exists with its deletion
timestamp, and its finalizer is gone only if the generated secret is. -/
def deletionInvariant (c : Cluster) : Prop :=
  ∃ r, c.kmsSecret = some r ∧ r.deletionTimestamp = true ∧
    (r.finalizer = false → c.secret = none)

/-- A sequence of reconcile passes, each with its own collaborators'
behaviour. -/
def reconcilePasses : List Collaborators → Cache → Cluster → Cluster
  | [], _, c => c
  | env :: rest, cache, c =>
    reconcilePasses rest (reconcile env cache c).cache (reconcile env cache c).cluster

/-! ## Concrete inputs used by the witnesses and counterexamples -/

/-- Collaborators for the examples: ciphertext "c1" decrypts to "s3cr3t", every
other ciphertext is malformed; the fingerprint is the ciphertext itself; the
Cluster API works. -/
def workingGateway : Collaborators :=
  { decrypt := fun ciphertext _ _ =>
      if ciphertext = ascii ("c1") then .plaintext (ascii ("s3cr3t")) else .denied
    fingerprint := fun ciphertext => ciphertext
    deleteFails := false
    writeFails := false }

/-- The collaborators of `workingGateway` with a failing delete. -/
def failingDelete : Collaborators := { workingGateway with deleteFails := true }

/-- A synced resource that carries the finalizer and a deletion timestamp. -/
def deletingResource : KMSSecret :=
  { generation := 1
    dataEntries := [⟨ascii ("a"), ascii ("c1"), ascii ("k1"), ascii ("us-east-1")⟩]
    finalizer := true
    deletionTimestamp := true
    status := ⟨1, [(ascii ("a"), ascii ("c1"))], .isTrue⟩ }

/-- The resource `deletingResource` with its generated secret. -/
def deletingCluster : Cluster :=
  { kmsSecret := some deletingResource, secret := some [(ascii ("a"), ascii ("s3cr3t"))] }

/-- A resource with two fields, synced at an earlier generation with field "a"
only: the ciphertext of "a" has changed to "c1", and "b" is malformed. -/
def partialResource : KMSSecret :=
  { generation := 2
    dataEntries := [⟨ascii ("a"), ascii ("c1"), ascii ("k1"), ascii ("us-east-1")⟩,
      ⟨ascii ("b"), ascii ("garbage"), ascii ("k1"), ascii ("us-east-1")⟩]
    finalizer := true
    deletionTimestamp := false
    status := ⟨1, [(ascii ("a"), ascii ("c0"))], .isTrue⟩ }

/-- The resource `partialResource` with the secret of its earlier sync. -/
def partialCluster : Cluster :=
  { kmsSecret := some partialResource, secret := some [(ascii ("a"), ascii ("old"))] }

/-- AWS collaborators for the examples: loading the configuration fails with
error 1 for region "nowhere"; Encrypt fails with error 2 for key "bad" and
otherwise answers with the blob `[1, 2, 3]`. -/
def testAws : Aws Unit Nat :=
  { LoadDefaultConfig := fun region =>
      if region = ascii ("nowhere") then .error 1 else .ok ()
    Encrypt := fun _ input =>
      if input.KeyId = ascii ("bad") then .error 2 else .ok ⟨some [1, 2, 3]⟩ }

/-- Collaborators for the examples: ciphertext "c1" decrypts to "s3cr3t",
ciphertext "slow" is throttled, ciphertext "c9" decrypts to "n3wpass" in
region "us-east-1" only, and every other request is refused; the fingerprint
is the ciphertext itself; the Cluster API works. -/
def mixedGateway : Collaborators :=
  { decrypt := fun ciphertext _ region =>
      if ciphertext = ascii ("c1") then .plaintext (ascii ("s3cr3t"))
      else if ciphertext = ascii ("slow") then .transient
      else if ciphertext = ascii ("c9") ∧ region = ascii ("us-east-1") then
        .plaintext (ascii ("n3wpass"))
      else .denied
    fingerprint := fun ciphertext => ciphertext
    deleteFails := false
    writeFails := false }

/-- A never-synced resource with the two given data entries. -/
def freshResource (a b : DataEntry) : KMSSecret :=
  { generation := 1
    dataEntries := [a, b]
    finalizer := true
    deletionTimestamp := false
    status := ⟨0, [], .unknown⟩ }

/-- The entry named `name` with the given ciphertext, key "k1" and region. -/
def entry (name ciphertext region : String) : DataEntry :=
  ⟨ascii name, ascii ciphertext, ascii ("k1"), ascii region⟩

/-- Field "a" is throttled, field "b" is malformed. -/
def throttledFirst : Cluster :=
  { kmsSecret := some (freshResource (entry ("a") ("slow") ("us-east-1"))
      (entry ("b") ("garbage") ("us-east-1")))
    secret := none }

/-- Field "a" decrypts, field "b" has an empty ciphertext. -/
def emptyCiphertext : Cluster :=
  { kmsSecret := some (freshResource (entry ("a") ("c1") ("us-east-1"))
      (entry ("b") ("") ("us-east-1")))
    secret := none }

/-- Field "a" decrypts; field "b" is refused by the gateway, but its fingerprint
is the one recorded in the status and the secret holds a value for it. -/
def unchangedField : Cluster :=
  { kmsSecret := some
      { freshResource (entry ("a") ("c1") ("us-east-1")) (entry ("b") ("garbage") ("us-east-1"))
        with status := ⟨1, [(ascii ("b"), ascii ("garbage"))], .isTrue⟩ }
    secret := some [(ascii ("b"), ascii ("old"))] }

/-- Field "a" decrypts, field "b" is malformed (for use with a cache that
holds an entry for "b"). -/
def cachedField : Cluster :=
  { kmsSecret := some (freshResource (entry ("a") ("c1") ("us-east-1"))
      (entry ("b") ("garbage") ("us-east-1")))
    secret := none }

/-- A cache that holds a plaintext for ciphertext "garbage" under key "k1". -/
def staleCache : Cache := [((ascii ("garbage"), ascii ("k1")), ascii ("stale"))]

/-- Fields "a" and "b" share ciphertext "c9" and key "k1"; the gateway decrypts
it in the region of "a" and refuses it in the region of "b". -/
def sharedCiphertext : Cluster :=
  { kmsSecret := some (freshResource (entry ("a") ("c9") ("us-east-1"))
      (entry ("b") ("c9") ("eu-west-1")))
    secret := none }

/-- Field "b" is malformed, and the resource is being deleted. -/
def deletedResource : Cluster :=
  { kmsSecret := some
      { freshResource (entry ("a") ("c1") ("us-east-1")) (entry ("b") ("garbage") ("us-east-1"))
        with deletionTimestamp := true }
    secret := none }

/-! ## Lemmas on `LastIndex` and slicing -/

theorem isPrefixOf_single (c : Nat) (l : GoString) :
    List.isPrefixOf [c] l = (l.head? == some c) := by
  cases l with
  | nil => simp [List.isPrefixOf]
  | cons x xs =>
    simp [List.isPrefixOf]
    by_cases h : c = x <;> simp [h, eq_comm]

theorem lastIndexFrom_single (a b : GoString) (c : Nat) (hc : c ∉ b) :
    ∀ k, k ≤ b.length → lastIndexFrom (a ++ c :: b) [c] (a.length + k) = a.length := by
  intro k
  induction k with
  | zero =>
    intro _
    cases ha : a.length with
    | zero =>
      have : a = [] := List.length_eq_zero.mp ha
      subst this
      simp [lastIndexFrom, isPrefixOf_single]
    | succ n =>
      have hd : (a ++ c :: b).drop (n + 1) = c :: b := by
        rw [← ha]; simp
      simp [lastIndexFrom, isPrefixOf_single, hd]
  | succ k ih =>
    intro hk
    have hd : (a ++ c :: b).drop (a.length + k + 1) = b.drop k := by
      rw [List.drop_append_eq_append_drop]
      have h1 : a.length + k + 1 - a.length = k + 1 := by omega
      have h2 : List.drop (a.length + k + 1) a = [] := List.drop_eq_nil_of_le (by omega)
      simp [h1, h2]
    have hne : (b.drop k).head? ≠ some c := by
      intro h
      have := List.mem_of_mem_head? h
      exact hc (List.mem_of_mem_drop this)
    rw [← Nat.add_assoc]
    simp only [lastIndexFrom, hd, isPrefixOf_single]
    have : ((b.drop k).head? == some c) = false := by simpa using hne
    simp only [this]
    exact ih (by omega)

theorem LastIndex_single (a b : GoString) (c : Nat) (hc : c ∉ b) :
    LastIndex (a ++ c :: b) [c] = a.length := by
  unfold LastIndex
  have h1 : [c].length ≤ (a ++ c :: b).length := by simp; omega
  rw [if_pos h1]
  have h2 : (a ++ c :: b).length - [c].length = a.length + b.length := by simp
  rw [h2]
  exact lastIndexFrom_single a b c hc b.length (le_refl _)

theorem slice_mid (a m b : GoString) :
    slice (a ++ m ++ b) a.length (a.length + m.length) = some m := by
  unfold slice
  have h : (0:Int) ≤ a.length ∧ (a.length : Int) ≤ a.length + m.length ∧
      ((a.length : Int) + m.length) ≤ ((a ++ m ++ b).length : Int) := by
    refine ⟨by omega, by omega, ?_⟩
    simp
  rw [if_pos h]
  simp

theorem split_at_last (c : Nat) (l : GoString) (h : c ∈ l) :
    ∃ pre, l = pre ++ c :: (l.reverse.takeWhile (fun b => b != c)).reverse ∧
      c ∉ (l.reverse.takeWhile (fun b => b != c)).reverse := by
  induction l using List.reverseRecOn with
  | nil => simp at h
  | append_singleton init x ih =>
    by_cases hx : x = c
    · subst hx
      exact ⟨init, by simp, by simp⟩
    · have hmem : c ∈ init := by
        rcases List.mem_append.mp h with h1 | h1
        · exact h1
        · simp at h1; exact absurd h1.symm hx
      obtain ⟨pre, hpre, hnot⟩ := ih hmem
      have hne : (x != c) = true := by simpa using hx
      have htw : (List.takeWhile (fun b => b != c) (init ++ [x]).reverse).reverse =
          (List.takeWhile (fun b => b != c) init.reverse).reverse ++ [x] := by
        rw [List.reverse_append, List.reverse_singleton, List.singleton_append,
          List.takeWhile_cons, hne, if_pos rfl, List.reverse_cons]
      rw [htw]
      refine ⟨pre, ?_, ?_⟩
      · conv_lhs => rw [hpre]
        simp
      · intro hc
        rcases List.mem_append.mp hc with h1 | h1
        · exact hnot h1
        · simp at h1; exact hx h1.symm

/-- The two slice expressions of the source branch and the resulting
attribute, for a rendering `&{function file line}`. -/
theorem ReplaceAttr_source_aux (ToLower : GoString → GoString) (groups : List GoString)
    (v : Value) (function file line : GoString)
    (hs : v.String = sourceRendering function file line)
    (hfile : 47 ∈ file)
    (hdigits : ∀ d ∈ line, 48 ≤ d ∧ d ≤ 57) :
    slice v.String (LastIndex v.String (ascii ("/")) + 1) (LastIndex v.String (ascii (" ")))
      = some (afterLastSlash file) ∧
    slice v.String (LastIndex v.String (ascii (" ")) + 1) ((v.String.length : Int) - 1)
      = some line ∧
    ReplaceAttr ToLower groups ⟨SourceKey, v⟩
      = some ⟨SourceKey, .string (afterLastSlash file ++ ascii (":") ++ line)⟩ := by
  obtain ⟨pre, hpre, hnot⟩ := split_at_last 47 file hfile
  have hbase : (file.reverse.takeWhile (fun b => b != 47)).reverse = afterLastSlash file := rfl
  rw [hbase] at hpre hnot
  have h47 : (47 : Nat) ∉ line := fun h => by have := hdigits 47 h; omega
  have h32 : (32 : Nat) ∉ line := fun h => by have := hdigits 32 h; omega
  have hsl : ascii ("/") = [47] := rfl
  have hsp : ascii (" ") = [32] := rfl
  have e1 : v.String = ([38, 123] ++ function ++ [32] ++ pre) ++
      47 :: (afterLastSlash file ++ [32] ++ line ++ [125]) := by
    rw [hs, sourceRendering]
    conv_lhs => rw [hpre]
    simp [ascii]
  have e2 : v.String = ([38, 123] ++ function ++ [32] ++ file) ++ 32 :: (line ++ [125]) := by
    rw [hs, sourceRendering]
    simp [ascii]
  have hi : LastIndex v.String (ascii ("/")) =
      (([38, 123] ++ function ++ [32] ++ pre).length : Int) := by
    rw [hsl]
    conv_lhs => rw [e1]
    apply LastIndex_single
    simp [hnot, h47]
  have hj : LastIndex v.String (ascii (" ")) =
      (([38, 123] ++ function ++ [32] ++ file).length : Int) := by
    rw [hsp]
    conv_lhs => rw [e2]
    apply LastIndex_single
    simp [h32]
  have s1 : slice v.String (LastIndex v.String (ascii ("/")) + 1)
      (LastIndex v.String (ascii (" "))) = some (afterLastSlash file) := by
    rw [hi, hj]
    have e3 : v.String = ([38, 123] ++ function ++ [32] ++ pre ++ [47]) ++
        afterLastSlash file ++ ([32] ++ line ++ [125]) := by
      rw [e1]; simp
    have := slice_mid ([38, 123] ++ function ++ [32] ++ pre ++ [47]) (afterLastSlash file)
      ([32] ++ line ++ [125])
    rw [← e3] at this
    rw [← this]
    congr 1
    · simp only [List.length_append, List.length_cons, List.length_nil]
      push_cast
      omega
    · conv_lhs => rw [hpre]
      simp only [List.length_append, List.length_cons, List.length_nil]
      push_cast
      omega
  have s2 : slice v.String (LastIndex v.String (ascii (" ")) + 1)
      ((v.String.length : Int) - 1) = some line := by
    rw [hj]
    have e3 : v.String = ([38, 123] ++ function ++ [32] ++ file ++ [32]) ++ line ++ [125] := by
      rw [e2]; simp
    have := slice_mid ([38, 123] ++ function ++ [32] ++ file ++ [32]) line [125]
    rw [← e3] at this
    rw [← this]
    congr 1
    · simp only [List.length_append, List.length_cons, List.length_nil]
      push_cast
      omega
    · conv_lhs => rw [e3]
      simp only [List.length_append, List.length_cons, List.length_nil]
      push_cast
      omega
  refine ⟨s1, s2, ?_⟩
  have hk1 : ¬ (SourceKey = TimeKey ∧ groups.length = 0) := by
    intro h; exact absurd h.1 (by decide)
  have hk2 : ¬ (SourceKey = LevelKey) := by decide
  simp only [ReplaceAttr, hk1, if_false, if_true, s1, s2, hk2]
  rfl


/-! ## Lemmas: the bit operations of `DecodeRuneInString` as arithmetic -/

theorem and_1F (b : Nat) : b &&& 0x1F = b % 32 := Nat.and_pow_two_sub_one_eq_mod b 5

theorem and_3F (b : Nat) : b &&& 0x3F = b % 64 := Nat.and_pow_two_sub_one_eq_mod b 6

theorem and_0F (b : Nat) : b &&& 0x0F = b % 16 := Nat.and_pow_two_sub_one_eq_mod b 4

theorem and_07 (b : Nat) : b &&& 0x07 = b % 8 := Nat.and_pow_two_sub_one_eq_mod b 3

theorem mul_or (a b i : Nat) (h : b < 2 ^ i) : (a * 2 ^ i) ||| b = a * 2 ^ i + b := by
  rw [Nat.mul_comm, ← Nat.mul_add_lt_is_or h]

theorem or64 (a b : Nat) (h : b < 64) : (a * 64) ||| b = a * 64 + b :=
  mul_or a b 6 h

theorem or4096 (a b : Nat) (h : b < 4096) : (a * 4096) ||| b = a * 4096 + b :=
  mul_or a b 12 h

theorem or262144 (a b : Nat) (h : b < 262144) : (a * 262144) ||| b = a * 262144 + b :=
  mul_or a b 18 h

theorem shl6 (a : Nat) : a <<< 6 = a * 64 := Nat.shiftLeft_eq a 6

theorem shl12 (a : Nat) : a <<< 12 = a * 4096 := Nat.shiftLeft_eq a 12

theorem shl18 (a : Nat) : a <<< 18 = a * 262144 := Nat.shiftLeft_eq a 18

theorem rune2 (b0 b1 : Nat) :
    ((b0 &&& 0x1F) <<< 6) ||| (b1 &&& 0x3F) = (b0 % 32) * 64 + b1 % 64 := by
  rw [and_1F, and_3F, shl6]
  exact or64 _ _ (Nat.mod_lt _ (by decide))

theorem rune3 (b0 b1 b2 : Nat) :
    ((b0 &&& 0x0F) <<< 12) ||| ((b1 &&& 0x3F) <<< 6) ||| (b2 &&& 0x3F)
      = (b0 % 16) * 4096 + (b1 % 64) * 64 + b2 % 64 := by
  rw [and_0F, and_3F, and_3F, shl6, shl12]
  have h1 : b1 % 64 < 64 := Nat.mod_lt _ (by decide)
  have h2 : b2 % 64 < 64 := Nat.mod_lt _ (by decide)
  calc (b0 % 16 * 4096 ||| b1 % 64 * 64) ||| b2 % 64
      = (b0 % 16 * 4096 + b1 % 64 * 64) ||| b2 % 64 := by
        rw [or4096 _ _ (by omega)]
    _ = ((b0 % 16 * 64 + b1 % 64) * 64) ||| b2 % 64 := by
        have e : b0 % 16 * 4096 + b1 % 64 * 64 = (b0 % 16 * 64 + b1 % 64) * 64 := by omega
        rw [e]
    _ = (b0 % 16 * 64 + b1 % 64) * 64 + b2 % 64 := or64 _ _ h2
    _ = b0 % 16 * 4096 + b1 % 64 * 64 + b2 % 64 := by omega

theorem rune4 (b0 b1 b2 b3 : Nat) :
    ((b0 &&& 0x07) <<< 18) ||| ((b1 &&& 0x3F) <<< 12) ||| ((b2 &&& 0x3F) <<< 6)
      ||| (b3 &&& 0x3F)
      = (b0 % 8) * 262144 + (b1 % 64) * 4096 + (b2 % 64) * 64 + b3 % 64 := by
  rw [and_07, and_3F, and_3F, and_3F, shl6, shl12, shl18]
  have h1 : b1 % 64 < 64 := Nat.mod_lt _ (by decide)
  have h2 : b2 % 64 < 64 := Nat.mod_lt _ (by decide)
  have h3 : b3 % 64 < 64 := Nat.mod_lt _ (by decide)
  calc ((b0 % 8 * 262144 ||| b1 % 64 * 4096) ||| b2 % 64 * 64) ||| b3 % 64
      = ((b0 % 8 * 262144 + b1 % 64 * 4096) ||| b2 % 64 * 64) ||| b3 % 64 := by
        rw [or262144 _ _ (by omega)]
    _ = (((b0 % 8 * 64 + b1 % 64) * 4096) ||| b2 % 64 * 64) ||| b3 % 64 := by
        have e : b0 % 8 * 262144 + b1 % 64 * 4096 = (b0 % 8 * 64 + b1 % 64) * 4096 := by
          omega
        rw [e]
    _ = ((b0 % 8 * 64 + b1 % 64) * 4096 + b2 % 64 * 64) ||| b3 % 64 := by
        rw [or4096 _ _ (by omega)]
    _ = (((b0 % 8 * 64 + b1 % 64) * 64 + b2 % 64) * 64) ||| b3 % 64 := by
        have e : (b0 % 8 * 64 + b1 % 64) * 4096 + b2 % 64 * 64
            = ((b0 % 8 * 64 + b1 % 64) * 64 + b2 % 64) * 64 := by omega
        rw [e]
    _ = ((b0 % 8 * 64 + b1 % 64) * 64 + b2 % 64) * 64 + b3 % 64 := or64 _ _ h3
    _ = b0 % 8 * 262144 + b1 % 64 * 4096 + b2 % 64 * 64 + b3 % 64 := by omega

/-! ## Lemmas on `DecodeRuneInString` -/

theorem first_cases (b : Nat) :
    (b < 0x80 ∧ first b = 0xF0) ∨ (first b = 0xF1) ∨
    (0xC2 ≤ b ∧ b < 0xE0 ∧ first b = 0x02) ∨
    (b = 0xE0 ∧ first b = 0x13) ∨
    (0xE1 ≤ b ∧ b < 0xF0 ∧ b ≠ 0xED ∧ first b = 0x03) ∨
    (b = 0xED ∧ first b = 0x23) ∨
    (b = 0xF0 ∧ first b = 0x34) ∨
    (0xF1 ≤ b ∧ b < 0xF4 ∧ first b = 0x04) ∨
    (b = 0xF4 ∧ first b = 0x44) := by
  unfold first as xx
  split_ifs <;> simp_all <;> omega

theorem decode_ascii (b : Nat) (t : GoString) (h : b < 0x80) :
    DecodeRuneInString (b :: t) = (b, 1) := by
  simp [DecodeRuneInString, first, h, as, xx]

theorem decode_nil : DecodeRuneInString [] = (RuneError, 0) := by
  simp [DecodeRuneInString]


/-- The shape of every result of `DecodeRuneInString` on a non-empty string. -/
theorem decode_cases (s : GoString) (hs : s ≠ []) :
    DecodeRuneInString s = (RuneError, 1) ∨
    (∃ b0 t, s = b0 :: t ∧ b0 < 0x80 ∧ DecodeRuneInString s = (b0, 1)) ∨
    (∃ b0 b1 t, s = b0 :: b1 :: t ∧ 0xC2 ≤ b0 ∧ b0 < 0xE0 ∧ 0x80 ≤ b1 ∧ b1 ≤ 0xBF ∧
      DecodeRuneInString s = ((b0 % 32) * 64 + b1 % 64, 2)) ∨
    (∃ b0 b1 b2 t, s = b0 :: b1 :: b2 :: t ∧ 0xE0 ≤ b0 ∧ b0 < 0xF0 ∧
      0x80 ≤ b1 ∧ b1 ≤ 0xBF ∧ (b0 = 0xE0 → 0xA0 ≤ b1) ∧ (b0 = 0xED → b1 ≤ 0x9F) ∧
      0x80 ≤ b2 ∧ b2 ≤ 0xBF ∧
      DecodeRuneInString s = ((b0 % 16) * 4096 + (b1 % 64) * 64 + b2 % 64, 3)) ∨
    (∃ b0 b1 b2 b3 t, s = b0 :: b1 :: b2 :: b3 :: t ∧ 0xF0 ≤ b0 ∧ b0 ≤ 0xF4 ∧
      0x80 ≤ b1 ∧ b1 ≤ 0xBF ∧ (b0 = 0xF0 → 0x90 ≤ b1) ∧ (b0 = 0xF4 → b1 ≤ 0x8F) ∧
      0x80 ≤ b2 ∧ b2 ≤ 0xBF ∧ 0x80 ≤ b3 ∧ b3 ≤ 0xBF ∧
      DecodeRuneInString s =
        ((b0 % 8) * 262144 + (b1 % 64) * 4096 + (b2 % 64) * 64 + b3 % 64, 4)) := by
  cases s with
  | nil => exact absurd rfl hs
  | cons b0 t =>
    rcases first_cases b0 with ⟨hb, _⟩ | hf | ⟨h1, h2, hf⟩ | ⟨h1, hf⟩ | ⟨h1, h2, h3, hf⟩ |
      ⟨h1, hf⟩ | ⟨h1, hf⟩ | ⟨h1, h2, hf⟩ | ⟨h1, hf⟩
    · exact Or.inr (Or.inl ⟨b0, t, rfl, hb, decode_ascii b0 t hb⟩)
    · left
      simp [DecodeRuneInString, hf, as, xx]
    · -- two bytes
      cases t with
      | nil => left; simp [DecodeRuneInString, hf, as, xx, and_07]
      | cons b1 t =>
        by_cases hr : b1 < 0x80 ∨ 0xBF < b1
        · left
          simp [DecodeRuneInString, hf, as, xx, and_07, acceptRanges, hr]
        · right; right; left
          refine ⟨b0, b1, t, rfl, h1, h2, by omega, by omega, ?_⟩
          simp only [DecodeRuneInString, hf, as, xx, acceptRanges, List.length_cons,
            List.getD_cons_zero, List.getD_cons_succ, rune2]
          simp [and_07, hr]
    · -- three bytes
      cases t with
      | nil => left; simp [DecodeRuneInString, hf, as, xx, and_07]
      | cons b1 t =>
        cases t with
        | nil => left; simp [DecodeRuneInString, hf, as, xx, and_07]
        | cons b2 t =>
          by_cases hr : b1 < 0xA0 ∨ 0xBF < b1
          · left
            simp [DecodeRuneInString, hf, as, xx, and_07, acceptRanges, hr]
          · by_cases hr2 : b2 < 0x80 ∨ 0xBF < b2
            · left
              simp [DecodeRuneInString, hf, as, xx, and_07, acceptRanges, hr, hr2]
            · right; right; right; left
              refine ⟨b0, b1, b2, t, rfl, by omega, by omega, by omega, by omega, by omega,
                by omega, by omega, by omega, ?_⟩
              simp only [DecodeRuneInString, hf, as, xx, acceptRanges, List.length_cons,
                List.getD_cons_zero, List.getD_cons_succ, rune3]
              simp [and_07, hr, hr2]
    · -- three bytes
      cases t with
      | nil => left; simp [DecodeRuneInString, hf, as, xx, and_07]
      | cons b1 t =>
        cases t with
        | nil => left; simp [DecodeRuneInString, hf, as, xx, and_07]
        | cons b2 t =>
          by_cases hr : b1 < 0x80 ∨ 0xBF < b1
          · left
            simp [DecodeRuneInString, hf, as, xx, and_07, acceptRanges, hr]
          · by_cases hr2 : b2 < 0x80 ∨ 0xBF < b2
            · left
              simp [DecodeRuneInString, hf, as, xx, and_07, acceptRanges, hr, hr2]
            · right; right; right; left
              refine ⟨b0, b1, b2, t, rfl, by omega, by omega, by omega, by omega, by omega,
                by omega, by omega, by omega, ?_⟩
              simp only [DecodeRuneInString, hf, as, xx, acceptRanges, List.length_cons,
                List.getD_cons_zero, List.getD_cons_succ, rune3]
              simp [and_07, hr, hr2]
    · -- three bytes
      cases t with
      | nil => left; simp [DecodeRuneInString, hf, as, xx, and_07]
      | cons b1 t =>
        cases t with
        | nil => left; simp [DecodeRuneInString, hf, as, xx, and_07]
        | cons b2 t =>
          by_cases hr : b1 < 0x80 ∨ 0x9F < b1
          · left
            simp [DecodeRuneInString, hf, as, xx, and_07, acceptRanges, hr]
          · by_cases hr2 : b2 < 0x80 ∨ 0xBF < b2
            · left
              simp [DecodeRuneInString, hf, as, xx, and_07, acceptRanges, hr, hr2]
            · right; right; right; left
              refine ⟨b0, b1, b2, t, rfl, by omega, by omega, by omega, by omega, by omega,
                by omega, by omega, by omega, ?_⟩
              simp only [DecodeRuneInString, hf, as, xx, acceptRanges, List.length_cons,
                List.getD_cons_zero, List.getD_cons_succ, rune3]
              simp [and_07, hr, hr2]
    · -- four bytes
      cases t with
      | nil => left; simp [DecodeRuneInString, hf, as, xx, and_07]
      | cons b1 t =>
        cases t with
        | nil => left; simp [DecodeRuneInString, hf, as, xx, and_07]
        | cons b2 t =>
          cases t with
          | nil => left; simp [DecodeRuneInString, hf, as, xx, and_07]
          | cons b3 t =>
            by_cases hr : b1 < 0x90 ∨ 0xBF < b1
            · left
              simp [DecodeRuneInString, hf, as, xx, and_07, acceptRanges, hr]
            · by_cases hr2 : b2 < 0x80 ∨ 0xBF < b2
              · left
                simp [DecodeRuneInString, hf, as, xx, and_07, acceptRanges, hr, hr2]
              · by_cases hr3 : b3 < 0x80 ∨ 0xBF < b3
                · left
                  simp [DecodeRuneInString, hf, as, xx, and_07, acceptRanges, hr, hr2, hr3]
                · right; right; right; right
                  refine ⟨b0, b1, b2, b3, t, rfl, by omega, by omega, by omega, by omega,
                    by omega, by omega, by omega, by omega, by omega, by omega, ?_⟩
                  simp only [DecodeRuneInString, hf, as, xx, acceptRanges, List.length_cons,
                    List.getD_cons_zero, List.getD_cons_succ, rune4]
                  simp [and_07, hr, hr2, hr3]
    · -- four bytes
      cases t with
      | nil => left; simp [DecodeRuneInString, hf, as, xx, and_07]
      | cons b1 t =>
        cases t with
        | nil => left; simp [DecodeRuneInString, hf, as, xx, and_07]
        | cons b2 t =>
          cases t with
          | nil => left; simp [DecodeRuneInString, hf, as, xx, and_07]
          | cons b3 t =>
            by_cases hr : b1 < 0x80 ∨ 0xBF < b1
            · left
              simp [DecodeRuneInString, hf, as, xx, and_07, acceptRanges, hr]
            · by_cases hr2 : b2 < 0x80 ∨ 0xBF < b2
              · left
                simp [DecodeRuneInString, hf, as, xx, and_07, acceptRanges, hr, hr2]
              · by_cases hr3 : b3 < 0x80 ∨ 0xBF < b3
                · left
                  simp [DecodeRuneInString, hf, as, xx, and_07, acceptRanges, hr, hr2, hr3]
                · right; right; right; right
                  refine ⟨b0, b1, b2, b3, t, rfl, by omega, by omega, by omega, by omega,
                    by omega, by omega, by omega, by omega, by omega, by omega, ?_⟩
                  simp only [DecodeRuneInString, hf, as, xx, acceptRanges, List.length_cons,
                    List.getD_cons_zero, List.getD_cons_succ, rune4]
                  simp [and_07, hr, hr2, hr3]
    · -- four bytes
      cases t with
      | nil => left; simp [DecodeRuneInString, hf, as, xx, and_07]
      | cons b1 t =>
        cases t with
        | nil => left; simp [DecodeRuneInString, hf, as, xx, and_07]
        | cons b2 t =>
          cases t with
          | nil => left; simp [DecodeRuneInString, hf, as, xx, and_07]
          | cons b3 t =>
            by_cases hr : b1 < 0x80 ∨ 0x8F < b1
            · left
              simp [DecodeRuneInString, hf, as, xx, and_07, acceptRanges, hr]
            · by_cases hr2 : b2 < 0x80 ∨ 0xBF < b2
              · left
                simp [DecodeRuneInString, hf, as, xx, and_07, acceptRanges, hr, hr2]
              · by_cases hr3 : b3 < 0x80 ∨ 0xBF < b3
                · left
                  simp [DecodeRuneInString, hf, as, xx, and_07, acceptRanges, hr, hr2, hr3]
                · right; right; right; right
                  refine ⟨b0, b1, b2, b3, t, rfl, by omega, by omega, by omega, by omega,
                    by omega, by omega, by omega, by omega, by omega, by omega, ?_⟩
                  simp only [DecodeRuneInString, hf, as, xx, acceptRanges, List.length_cons,
                    List.getD_cons_zero, List.getD_cons_succ, rune4]
                  simp [and_07, hr, hr2, hr3]

theorem IsSpace_iff (r : Nat) :
    IsSpace r = true ↔
      (9 ≤ r ∧ r ≤ 13) ∨ r = 32 ∨ r = 0x85 ∨ r = 0xA0 ∨ r = 0x1680 ∨
      (0x2000 ≤ r ∧ r ≤ 0x200A) ∨ (0x2028 ≤ r ∧ r ≤ 0x2029) ∨ r = 0x202F ∨
      r = 0x205F ∨ r = 0x3000 := by
  unfold IsSpace MaxLatin1
  split_ifs with h
  · simp only [decide_eq_true_eq]
    omega
  · simp only [isExcludingLatin, White_Space, List.drop_succ_cons, List.drop_zero,
      List.any_cons, List.any_nil, Bool.or_false, Bool.or_eq_true, decide_eq_true_eq]
    omega

theorem decode_size (s : GoString) (hs : s ≠ []) :
    1 ≤ (DecodeRuneInString s).2 ∧ (DecodeRuneInString s).2 ≤ s.length := by
  rcases decode_cases s hs with h | ⟨b0, t, rfl, _, h⟩ | ⟨b0, b1, t, rfl, _, _, _, _, h⟩ |
    ⟨b0, b1, b2, t, rfl, _, _, _, _, _, _, _, _, h⟩ |
    ⟨b0, b1, b2, b3, t, rfl, _, _, _, _, _, _, _, _, _, _, h⟩
  · rw [h]
    cases s with
    | nil => exact absurd rfl hs
    | cons b t => simp
  all_goals (rw [h]; simp)

/-- A decoded white-space rune comes from one of the white-space encodings at
the start of the string, and the decoded width is the length of that
encoding. -/
theorem decode_space (s : GoString) (h : IsSpace (DecodeRuneInString s).1 = true) :
    ∃ w ∈ whiteSpaceEncodings, ∃ t, s = w ++ t ∧ (DecodeRuneInString s).2 = w.length := by
  by_cases hs : s = []
  · subst hs
    rw [decode_nil] at h
    exact absurd h (by decide)
  rcases decode_cases s hs with h1 | ⟨b0, t, rfl, hb, h1⟩ |
    ⟨b0, b1, t, rfl, ha, hb, hc, hd, h1⟩ |
    ⟨b0, b1, b2, t, rfl, ha, hb, hc, hd, he, hf, hg, hh, h1⟩ |
    ⟨b0, b1, b2, b3, t, rfl, ha, hb, hc, hd, he, hf, hg, hh, hi, hj, h1⟩
  · rw [h1] at h
    exact absurd h (by decide)
  · rw [h1] at h ⊢
    have h2 := (IsSpace_iff b0).mp h
    have h3 : b0 = 9 ∨ b0 = 10 ∨ b0 = 11 ∨ b0 = 12 ∨ b0 = 13 ∨ b0 = 32 := by omega
    refine ⟨[b0], ?_, t, rfl, rfl⟩
    rcases h3 with rfl | rfl | rfl | rfl | rfl | rfl <;> decide
  · rw [h1] at h ⊢
    have h2 := (IsSpace_iff _).mp h
    have h3 : b0 = 0xC2 ∧ (b1 = 0x85 ∨ b1 = 0xA0) := by omega
    obtain ⟨rfl, h4⟩ := h3
    refine ⟨[0xC2, b1], ?_, t, rfl, rfl⟩
    rcases h4 with rfl | rfl <;> decide
  · rw [h1] at h ⊢
    have h2 := (IsSpace_iff _).mp h
    have m0 : b0 % 16 = b0 - 0xE0 := by omega
    have m1 : b1 % 64 = b1 - 0x80 := by omega
    have m2 : b2 % 64 = b2 - 0x80 := by omega
    rw [m0, m1, m2] at h2
    refine ⟨[b0, b1, b2], ?_, t, rfl, rfl⟩
    rcases h2 with h2 | h2 | h2 | h2 | h2 | h2 | h2 | h2 | h2 | h2
    · omega
    · omega
    · omega
    · omega
    · have e0 : b0 = 0xE1 := by omega
      have e1 : b1 = 0x9A := by omega
      have e2 : b2 = 0x80 := by omega
      subst e0 e1 e2
      decide
    · have e0 : b0 = 0xE2 := by omega
      have e1 : b1 = 0x80 := by omega
      have e2 : 0x80 ≤ b2 ∧ b2 ≤ 0x8A := by omega
      subst e0 e1
      obtain ⟨l2, u2⟩ := e2
      interval_cases b2 <;> decide
    · have e0 : b0 = 0xE2 := by omega
      have e1 : b1 = 0x80 := by omega
      have e2 : b2 = 0xA8 ∨ b2 = 0xA9 := by omega
      subst e0 e1
      rcases e2 with rfl | rfl <;> decide
    · have e0 : b0 = 0xE2 := by omega
      have e1 : b1 = 0x80 := by omega
      have e2 : b2 = 0xAF := by omega
      subst e0 e1 e2
      decide
    · have e0 : b0 = 0xE2 := by omega
      have e1 : b1 = 0x81 := by omega
      have e2 : b2 = 0x9F := by omega
      subst e0 e1 e2
      decide
    · have e0 : b0 = 0xE3 := by omega
      have e1 : b1 = 0x80 := by omega
      have e2 : b2 = 0x80 := by omega
      subst e0 e1 e2
      decide
  · rw [h1] at h
    have h2 := (IsSpace_iff _).mp h
    have m1 : b1 % 64 = b1 - 0x80 := by omega
    have m2 : b2 % 64 = b2 - 0x80 := by omega
    have m3 : b3 % 64 = b3 - 0x80 := by omega
    have m0 : b0 % 8 = b0 - 0xF0 := by omega
    rw [m0, m1, m2, m3] at h2
    omega

/-- Every white-space encoding at the start of a string decodes to a
white-space rune of the encoding's width. -/
theorem decode_whiteSpace (w : GoString) (hw : w ∈ whiteSpaceEncodings) (t : GoString) :
    IsSpace (DecodeRuneInString (w ++ t)).1 = true ∧
    (DecodeRuneInString (w ++ t)).2 = w.length := by
  simp only [whiteSpaceEncodings, List.mem_cons, List.mem_singleton, List.not_mem_nil,
    or_false] at hw
  rcases hw with rfl | rfl | rfl | rfl | rfl | rfl | rfl | rfl | rfl | rfl | rfl | rfl | rfl |
    rfl | rfl | rfl | rfl | rfl | rfl | rfl | rfl | rfl | rfl | rfl | rfl
  all_goals
    simp only [DecodeRuneInString, first, as, xx, acceptRanges, List.length_cons,
      List.getD_cons_zero, List.getD_cons_succ, rune2, rune3, List.cons_append,
      List.nil_append]
    simp [and_07]
    (try split_ifs) <;> first | omega | decide


/-! ## Lemmas on `OnlyWhiteSpace` -/

theorem whiteSpaceEncodings_ne_nil (w : GoString) (hw : w ∈ whiteSpaceEncodings) :
    1 ≤ w.length := by
  simp only [whiteSpaceEncodings, List.mem_cons, List.mem_singleton, List.not_mem_nil,
    or_false] at hw
  rcases hw with rfl | rfl | rfl | rfl | rfl | rfl | rfl | rfl | rfl | rfl | rfl | rfl | rfl |
    rfl | rfl | rfl | rfl | rfl | rfl | rfl | rfl | rfl | rfl | rfl | rfl <;> simp

theorem OnlyWhiteSpace.append {p q : GoString} (hp : OnlyWhiteSpace p)
    (hq : OnlyWhiteSpace q) : OnlyWhiteSpace (p ++ q) := by
  induction hp with
  | nil => simpa using hq
  | cons w s hw _ ih =>
    rw [List.append_assoc]
    exact OnlyWhiteSpace.cons w (s ++ q) hw ih

theorem OnlyWhiteSpace.single {w : GoString} (hw : w ∈ whiteSpaceEncodings) :
    OnlyWhiteSpace w := by
  have := OnlyWhiteSpace.cons w [] hw OnlyWhiteSpace.nil
  simpa using this

/-- A non-empty white-space string starts with a white-space rune, and what
follows that rune is again white space. -/
theorem OnlyWhiteSpace.decode {s : GoString} (h : OnlyWhiteSpace s) (hs : s ≠ []) :
    IsSpace (DecodeRuneInString s).1 = true ∧
    OnlyWhiteSpace (s.drop (DecodeRuneInString s).2) := by
  cases h with
  | nil => exact absurd rfl hs
  | cons w t hw ht =>
    obtain ⟨h1, h2⟩ := decode_whiteSpace w hw t
    refine ⟨h1, ?_⟩
    rw [h2]
    simpa using ht

/-- A string that starts with a white-space rune followed by white space is
white space. -/
theorem OnlyWhiteSpace.of_decode {s : GoString}
    (h1 : IsSpace (DecodeRuneInString s).1 = true)
    (h2 : OnlyWhiteSpace (s.drop (DecodeRuneInString s).2)) : OnlyWhiteSpace s := by
  obtain ⟨w, hw, t, hst, hsz⟩ := decode_space s h1
  rw [hsz, hst] at h2
  rw [hst]
  have : OnlyWhiteSpace t := by simpa using h2
  exact OnlyWhiteSpace.cons w t hw this

theorem OnlyWhiteSpace.head_ascii {b : Nat} {t : GoString} (h : OnlyWhiteSpace (b :: t))
    (hb : b < 0x80) : asciiSpace b = 1 := by
  have h1 := (h.decode (by simp)).1
  rw [decode_ascii b t hb] at h1
  have h2 := (IsSpace_iff b).mp h1
  unfold asciiSpace
  rw [if_pos (by omega)]

theorem OnlyWhiteSpace.cons_ascii {b : Nat} {t : GoString} (hb : asciiSpace b ≠ 0) :
    OnlyWhiteSpace (b :: t) ↔ OnlyWhiteSpace t := by
  have hb2 : b = 9 ∨ b = 10 ∨ b = 11 ∨ b = 12 ∨ b = 13 ∨ b = 32 := by
    unfold asciiSpace at hb
    by_contra hc
    exact hb (if_neg hc)
  have hlt : b < 0x80 := by omega
  constructor
  · intro h
    have h1 := (h.decode (by simp)).2
    rw [decode_ascii b t hlt] at h1
    simpa using h1
  · intro h
    have hw : [b] ∈ whiteSpaceEncodings := by
      rcases hb2 with rfl | rfl | rfl | rfl | rfl | rfl <;> decide
    exact OnlyWhiteSpace.cons [b] t hw h

/-! ## Lemmas on the trimming loops -/

theorem drop_eq_getD_cons (s : GoString) (i : Nat) (h : i < s.length) :
    s.drop i = s.getD i 0 :: s.drop (i + 1) := by
  rw [List.drop_eq_getElem_cons h]
  congr 1
  simp [List.getD, List.getElem?_eq_getElem h]

/-- The forward scan finds no non-space rune exactly in white-space strings. -/
theorem indexFuncFrom_eq_neg_one (s : GoString) :
    ∀ fuel i, s.length - i ≤ fuel →
      (indexFuncFrom s IsSpace false fuel i = -1 ↔ OnlyWhiteSpace (s.drop i)) := by
  intro fuel
  induction fuel with
  | zero =>
    intro i hi
    have : s.drop i = [] := List.drop_eq_nil_of_le (by omega)
    simp [indexFuncFrom, this, OnlyWhiteSpace.nil]
  | succ fuel ih =>
    intro i hi
    by_cases hlt : i < s.length
    · have hne : s.drop i ≠ [] := by
        intro h
        have := List.drop_eq_nil_iff.mp h
        omega
      have hsz := decode_size (s.drop i) hne
      by_cases hsp : IsSpace (DecodeRuneInString (s.drop i)).1 = true
      · have hstep : indexFuncFrom s IsSpace false (fuel + 1) i =
            indexFuncFrom s IsSpace false fuel (i + (DecodeRuneInString (s.drop i)).2) := by
          simp [indexFuncFrom, hlt, hsp]
        rw [hstep, ih _ (by omega), ← List.drop_drop]
        constructor
        · intro h
          exact OnlyWhiteSpace.of_decode hsp h
        · intro h
          exact (h.decode hne).2
      · have hstep : indexFuncFrom s IsSpace false (fuel + 1) i = (i : Int) := by
          simp [indexFuncFrom, hlt, hsp]
        rw [hstep]
        constructor
        · intro h
          omega
        · intro h
          exact absurd (h.decode hne).1 hsp
    · have : s.drop i = [] := List.drop_eq_nil_of_le (by omega)
      simp [indexFuncFrom, hlt, this, OnlyWhiteSpace.nil]

/-- When the forward scan finds a rune, it is a non-space rune at an index
inside the string. -/
theorem indexFuncFrom_found (s : GoString) :
    ∀ fuel i, indexFuncFrom s IsSpace false fuel i ≠ -1 →
      ∃ k : Nat, indexFuncFrom s IsSpace false fuel i = (k : Int) ∧ k < s.length ∧
        IsSpace (DecodeRuneInString (s.drop k)).1 = false := by
  intro fuel
  induction fuel with
  | zero => intro i h; simp [indexFuncFrom] at h
  | succ fuel ih =>
    intro i h
    by_cases hlt : i < s.length
    · by_cases hsp : IsSpace (DecodeRuneInString (s.drop i)).1 = true
      · have hstep : indexFuncFrom s IsSpace false (fuel + 1) i =
            indexFuncFrom s IsSpace false fuel (i + (DecodeRuneInString (s.drop i)).2) := by
          simp [indexFuncFrom, hlt, hsp]
        rw [hstep] at h ⊢
        exact ih _ h
      · have hstep : indexFuncFrom s IsSpace false (fuel + 1) i = (i : Int) := by
          simp [indexFuncFrom, hlt, hsp]
        exact ⟨i, hstep, hlt, by simpa using hsp⟩
    · simp [indexFuncFrom, hlt] at h

theorem getD_last_append (t : GoString) (ht : t ≠ []) :
    t = t.dropLast ++ [t.getD (t.length - 1) 0] := by
  have h1 := (List.dropLast_append_getLast ht).symm
  have h2 : t.getLast ht = t.getD (t.length - 1) 0 := by
    rw [List.getLast_eq_getElem]
    simp [List.getD, List.getElem?_eq_getElem (show t.length - 1 < t.length by
      have := List.length_pos.mpr ht; omega)]
  rw [← h2]
  exact h1

/-- A white-space rune decoded at the end of a string comes from one of the
white-space encodings at the end of the string. -/
theorem decodeLast_space (t : GoString)
    (h : IsSpace (DecodeLastRuneInString t).1 = true) :
    ∃ p w, w ∈ whiteSpaceEncodings ∧ t = p ++ w ∧ (DecodeLastRuneInString t).2 = w.length := by
  by_cases ht : t = []
  · subst ht
    exact absurd h (by decide)
  have hlen : 0 < t.length := List.length_pos.mpr ht
  unfold DecodeLastRuneInString at h ⊢
  simp only at h ⊢
  rw [if_neg (by omega)] at h ⊢
  have e1 : ((t.length : Int) - 1).toNat = t.length - 1 := by omega
  rw [e1] at h ⊢
  by_cases hr : t.getD (t.length - 1) 0 < RuneSelf
  · rw [if_pos hr] at h ⊢
    have h2 := (IsSpace_iff _).mp h
    unfold RuneSelf at hr
    have h3 : t.getD (t.length - 1) 0 = 9 ∨ t.getD (t.length - 1) 0 = 10 ∨
        t.getD (t.length - 1) 0 = 11 ∨ t.getD (t.length - 1) 0 = 12 ∨
        t.getD (t.length - 1) 0 = 13 ∨ t.getD (t.length - 1) 0 = 32 := by
      simp only at h2
      omega
    refine ⟨t.dropLast, [t.getD (t.length - 1) 0], ?_, getD_last_append t ht, rfl⟩
    rcases h3 with h3 | h3 | h3 | h3 | h3 | h3 <;> rw [h3] <;> decide
  · rw [if_neg hr] at h ⊢
    generalize hst : (if lastRuneStart t (if (t.length : Int) - (UTFMax : Nat) < 0 then 0
        else (t.length : Int) - (UTFMax : Nat)) UTFMax ((t.length : Int) - 1 - 1) < 0 then (0 : Int)
        else lastRuneStart t (if (t.length : Int) - (UTFMax : Nat) < 0 then 0
        else (t.length : Int) - (UTFMax : Nat)) UTFMax ((t.length : Int) - 1 - 1)) = start at h ⊢
    have hst0 : 0 ≤ start := by
      rw [← hst]
      split_ifs <;> omega
    by_cases hne : start + ((DecodeRuneInString
        ((t.drop start.toNat).take ((t.length : Int) - start).toNat)).2 : Int) ≠ t.length
    · rw [if_pos hne] at h
      exact absurd h (by decide)
    · rw [if_neg hne] at h ⊢
      have heq : start + ((DecodeRuneInString
        ((t.drop start.toNat).take ((t.length : Int) - start).toNat)).2 : Int) = t.length := by
        simpa using hne
      have hle : start.toNat ≤ t.length := by omega
      have hsub : (t.drop start.toNat).take ((t.length : Int) - start).toNat
          = t.drop start.toNat := by
        apply List.take_of_length_le
        simp
        omega
      rw [hsub] at h heq ⊢
      obtain ⟨w, hw, rest, hwr, hsz⟩ := decode_space _ h
      have hl : (t.drop start.toNat).length = w.length + rest.length := by
        rw [hwr]; simp
      have hl2 : (t.drop start.toNat).length = t.length - start.toNat := by simp
      have hrest : rest = [] := by
        apply List.length_eq_zero.mp
        omega
      subst hrest
      refine ⟨t.take start.toNat, w, hw, ?_, hsz⟩
      have := (List.take_append_drop start.toNat t).symm
      rw [hwr] at this
      simpa using this

/-- When the backward scan finds no non-space rune, the scanned prefix is white
space. -/
theorem lastIndexFuncFrom_eq_neg_one (s : GoString) :
    ∀ fuel i, i ≤ fuel → i ≤ s.length →
      lastIndexFuncFrom s IsSpace false fuel i = -1 → OnlyWhiteSpace (s.take i) := by
  intro fuel
  induction fuel with
  | zero =>
    intro i hi _ _
    have : i = 0 := by omega
    subst this
    simpa using OnlyWhiteSpace.nil
  | succ fuel ih =>
    intro i hi hlen h
    by_cases hpos : i > 0
    · by_cases hsp : IsSpace (DecodeLastRuneInString (s.take i)).1 = true
      · obtain ⟨p, w, hw, hpw, hsz⟩ := decodeLast_space _ hsp
        have hw1 := whiteSpaceEncodings_ne_nil w hw
        have hstep : lastIndexFuncFrom s IsSpace false (fuel + 1) i =
            lastIndexFuncFrom s IsSpace false fuel
              (i - (DecodeLastRuneInString (s.take i)).2) := by
          simp [lastIndexFuncFrom, hpos, hsp]
        rw [hstep, hsz] at h
        have hp := ih (i - w.length) (by omega) (by omega) h
        have hl : (s.take i).length = p.length + w.length := by rw [hpw]; simp
        have hl2 : (s.take i).length = i := by simp; omega
        have htake : s.take (i - w.length) = p := by
          have h1 : s.take (i - w.length) = (s.take i).take (i - w.length) := by
            rw [List.take_take]
            congr 1
            omega
          rw [h1, hpw]
          have h2 : i - w.length = p.length := by omega
          rw [h2]
          simp
        rw [htake] at hp
        rw [hpw]
        exact hp.append (OnlyWhiteSpace.single hw)
      · have hstep : lastIndexFuncFrom s IsSpace false (fuel + 1) i =
            ((i - (DecodeLastRuneInString (s.take i)).2 : Nat) : Int) := by
          simp [lastIndexFuncFrom, hpos, hsp]
        rw [hstep] at h
        omega
    · have : i = 0 := by omega
      subst this
      simpa using OnlyWhiteSpace.nil

theorem lastIndexFuncFrom_nonneg (s : GoString) (f : Nat → Bool) (truth : Bool) :
    ∀ fuel i, lastIndexFuncFrom s f truth fuel i = -1 ∨
      0 ≤ lastIndexFuncFrom s f truth fuel i := by
  intro fuel
  induction fuel with
  | zero => intro i; left; rfl
  | succ fuel ih =>
    intro i
    by_cases hpos : i > 0
    · by_cases hf : (f (DecodeLastRuneInString (s.take i)).1 == truth) = true
      · right
        simp [lastIndexFuncFrom, hpos, hf]
      · have hstep : lastIndexFuncFrom s f truth (fuel + 1) i =
            lastIndexFuncFrom s f truth fuel (i - (DecodeLastRuneInString (s.take i)).2) := by
          simp [lastIndexFuncFrom, hpos, hf]
        rw [hstep]
        exact ih _
    · left
      simp [lastIndexFuncFrom, hpos]

theorem TrimRightFunc_nil : TrimRightFunc [] IsSpace = [] := by
  simp [TrimRightFunc]

/-- Trimming on the right leaves something of every string that is not white
space. -/
theorem TrimRightFunc_ne_nil (u : GoString) (hu : ¬ OnlyWhiteSpace u) :
    TrimRightFunc u IsSpace ≠ [] := by
  have hne : u ≠ [] := by
    intro h; subst h; exact hu OnlyWhiteSpace.nil
  have hidx : lastIndexFunc u IsSpace false ≠ -1 := by
    intro h
    have := lastIndexFuncFrom_eq_neg_one u u.length u.length (le_refl _) (le_refl _) h
    rw [List.take_length] at this
    exact hu this
  have hnn : 0 ≤ lastIndexFunc u IsSpace false := by
    rcases lastIndexFuncFrom_nonneg u IsSpace false u.length u.length with h | h
    · exact absurd h hidx
    · exact h
  unfold TrimRightFunc
  simp only
  generalize lastIndexFunc u IsSpace false = i at hnn
  have hposlen : 0 < u.length := List.length_pos.mpr hne
  split_ifs with hc
  · have hlt : i.toNat < u.length := by
      by_contra hge
      have : u.getD i.toNat 0 = 0 := by
        simp [List.getD, List.getElem?_eq_none (show u.length ≤ i.toNat by omega)]
      rw [this] at hc
      exact absurd hc.2 (by decide)
    have hdn : u.drop i.toNat ≠ [] := by
      intro h
      have := List.drop_eq_nil_iff.mp h
      omega
    have hsz := decode_size _ hdn
    intro h
    have h2 := congrArg List.length h
    simp only [List.length_take, List.length_nil] at h2
    omega
  · intro h
    have h2 := congrArg List.length h
    simp only [List.length_take, List.length_nil] at h2
    omega

/-- The function `TrimFunc(s, IsSpace)` returns the empty string exactly for
white-space strings. -/
theorem TrimFunc_eq_nil (u : GoString) : TrimFunc u IsSpace = [] ↔ OnlyWhiteSpace u := by
  unfold TrimFunc TrimLeftFunc
  simp only
  have hiff := indexFuncFrom_eq_neg_one u u.length 0 (by omega)
  rw [List.drop_zero] at hiff
  by_cases hi : indexFunc u IsSpace false = -1
  · rw [if_pos hi]
    exact ⟨fun _ => hiff.mp hi, fun _ => TrimRightFunc_nil⟩
  · rw [if_neg hi]
    obtain ⟨k, hk, hlt, hsp⟩ := indexFuncFrom_found u u.length 0 hi
    have hk2 : indexFunc u IsSpace false = (k : Int) := hk
    rw [hk2, Int.toNat_ofNat]
    have hdn : u.drop k ≠ [] := by
      intro h
      have := List.drop_eq_nil_iff.mp h
      omega
    have hnw : ¬ OnlyWhiteSpace (u.drop k) := by
      intro h
      have := (h.decode hdn).1
      rw [hsp] at this
      exact absurd this (by decide)
    constructor
    · intro h
      exact absurd h (TrimRightFunc_ne_nil _ hnw)
    · intro h
      exact absurd (hiff.mpr h) hi

theorem trimSpaceStop_of_le (s : GoString) (start : Nat) :
    ∀ fuel stop, stop ≤ start → trimSpaceStop s start fuel stop = [] := by
  intro fuel stop h
  have h0 : stop - start = 0 := by omega
  cases fuel with
  | zero => simp [trimSpaceStop, h0]
  | succ fuel =>
    have : ¬ stop > start := by omega
    simp [trimSpaceStop, this, h0]

/-- The second loop of `TrimSpace` keeps at least the byte at `start` when that
byte is an ASCII byte other than a space. -/
theorem trimSpaceStop_ne_nil (s : GoString) (start : Nat)
    (h1 : s.getD start 0 < RuneSelf) (h2 : asciiSpace (s.getD start 0) = 0) :
    ∀ fuel stop, start < stop → stop ≤ s.length → stop ≤ fuel + start →
      trimSpaceStop s start fuel stop ≠ [] := by
  have hsub : ∀ stop, start < stop → stop ≤ s.length →
      (s.drop start).take (stop - start)
        = s.getD start 0 :: (s.drop (start + 1)).take (stop - start - 1) := by
    intro stop hs hl
    rw [drop_eq_getD_cons s start (by omega)]
    have : stop - start = (stop - start - 1) + 1 := by omega
    rw [this, List.take_succ_cons]
    simp
  intro fuel
  induction fuel with
  | zero => intro stop hs _ hf; omega
  | succ fuel ih =>
    intro stop hs hl hf
    have hgt : stop > start := hs
    by_cases hc : s.getD (stop - 1) 0 ≥ RuneSelf
    · have hstep : trimSpaceStop s start (fuel + 1) stop =
          TrimRightFunc ((s.drop start).take (stop - start)) IsSpace := by
        simp only [trimSpaceStop, if_pos hgt, if_pos hc]
      rw [hstep, hsub stop hs hl]
      apply TrimRightFunc_ne_nil
      intro hw
      have := hw.head_ascii h1
      omega
    · by_cases hsp : asciiSpace (s.getD (stop - 1) 0) = 0
      · have hstep : trimSpaceStop s start (fuel + 1) stop =
            (s.drop start).take (stop - start) := by
          simp only [trimSpaceStop, if_pos hgt, if_neg hc, if_pos hsp]
        rw [hstep, hsub stop hs hl]
        simp
      · have hstep : trimSpaceStop s start (fuel + 1) stop =
            trimSpaceStop s start fuel (stop - 1) := by
          simp only [trimSpaceStop, if_pos hgt, if_neg hc, if_neg hsp]
        rw [hstep]
        have hneq : stop - 1 ≠ start := by
          intro h
          rw [h] at hsp
          exact hsp h2
        exact ih (stop - 1) (by omega) (by omega) (by omega)

/-- The first loop of `TrimSpace`, started at `start`, returns the empty string
exactly when `s[start:]` is white space. -/
theorem trimSpaceStart_eq_nil (s : GoString) :
    ∀ fuel start, s.length - start ≤ fuel →
      (trimSpaceStart s fuel start = [] ↔ OnlyWhiteSpace (s.drop start)) := by
  intro fuel
  induction fuel with
  | zero =>
    intro start h
    have hd : s.drop start = [] := List.drop_eq_nil_of_le (by omega)
    simp [trimSpaceStart, trimSpaceStop_of_le s start s.length s.length (by omega), hd,
      OnlyWhiteSpace.nil]
  | succ fuel ih =>
    intro start h
    by_cases hlt : start < s.length
    · have hd := drop_eq_getD_cons s start hlt
      by_cases hc : s.getD start 0 ≥ RuneSelf
      · have hstep : trimSpaceStart s (fuel + 1) start = TrimFunc (s.drop start) IsSpace := by
          simp only [trimSpaceStart, if_pos hlt, if_pos hc]
        rw [hstep]
        exact TrimFunc_eq_nil _
      · by_cases hsp : asciiSpace (s.getD start 0) = 0
        · have hstep : trimSpaceStart s (fuel + 1) start =
              trimSpaceStop s start s.length s.length := by
            simp only [trimSpaceStart, if_pos hlt, if_neg hc, if_pos hsp]
          rw [hstep, hd]
          have hlt2 : s.getD start 0 < RuneSelf := by omega
          constructor
          · intro hnil
            exact absurd hnil
              (trimSpaceStop_ne_nil s start hlt2 hsp s.length s.length hlt (le_refl _) (by omega))
          · intro hw
            have := hw.head_ascii hlt2
            omega
        · have hstep : trimSpaceStart s (fuel + 1) start = trimSpaceStart s fuel (start + 1) := by
            simp only [trimSpaceStart, if_pos hlt, if_neg hc, if_neg hsp]
          rw [hstep, ih (start + 1) (by omega), hd]
          exact (OnlyWhiteSpace.cons_ascii hsp).symm
    · have hd : s.drop start = [] := List.drop_eq_nil_of_le (by omega)
      simp [trimSpaceStart, hlt, trimSpaceStop_of_le s start s.length s.length (by omega), hd,
        OnlyWhiteSpace.nil]

/-- The function `TrimSpace` returns the empty string exactly for the strings
that contain only white space. -/
theorem TrimSpace_eq_nil (s : GoString) : TrimSpace s = [] ↔ OnlyWhiteSpace s := by
  have := trimSpaceStart_eq_nil s s.length 0 (by omega)
  simpa [TrimSpace] using this

/-! ## Lemmas on the modelled reconciler -/

theorem Fields.add_ok_iff (x : GoString × GoString) (f : Fields) (reason : Reason)
    (field : GoString) : f.add x = .failed reason field ↔ f = .failed reason field := by
  cases f <;> simp [Fields.add]

/-- Every call of the decrypt phase is a gateway call for a field of the
resource, and a denied call makes the phase fail terminally at that field. -/
theorem decryptEntries_calls (env : Collaborators) (status : Status)
    (secret : Option SecretData) :
    ∀ (entries : List DataEntry) (cache : Cache),
      (∀ call ∈ (decryptEntries env status secret entries cache).calls,
        ∃ field outcome, call = .decrypt field outcome ∧
          field ∈ entries.map (fun e => e.fieldName)) ∧
      (∀ field, Call.decrypt field .denied ∈
          (decryptEntries env status secret entries cache).calls →
        (decryptEntries env status secret entries cache).fields = .failed .Terminal field) := by
  intro entries
  induction entries with
  | nil => intro cache; simp [decryptEntries]
  | cons e rest ih =>
    intro cache
    have lift : ∀ (calls : List Call),
        (∀ call ∈ calls, ∃ field outcome, call = Call.decrypt field outcome ∧
          field ∈ rest.map (fun e => e.fieldName)) →
        (∀ call ∈ calls, ∃ field outcome, call = Call.decrypt field outcome ∧
          field ∈ (e :: rest).map (fun e => e.fieldName)) := by
      intro calls h call hc
      obtain ⟨f, o, h1, h2⟩ := h call hc
      exact ⟨f, o, h1, List.mem_cons_of_mem _ h2⟩
    unfold decryptEntries
    simp only
    split
    · -- unchanged field, decryption skipped
      refine ⟨lift _ (ih cache).1, ?_⟩
      intro field hf
      simp only [Fields.add_ok_iff]
      exact (ih cache).2 field hf
    · split
      · -- cache hit
        refine ⟨lift _ (ih cache).1, ?_⟩
        intro field hf
        simp only [Fields.add_ok_iff]
        exact (ih cache).2 field hf
      · split
        · -- gateway returned a plaintext
          rename_i p _
          constructor
          · intro call hc
            rcases List.mem_cons.mp hc with h | h
            · exact ⟨e.fieldName, .plaintext p, h, by simp⟩
            · exact lift _ (ih _).1 call h
          · intro field hf
            simp only [Fields.add_ok_iff]
            rcases List.mem_cons.mp hf with h | h
            · simp at h
            · exact (ih _).2 field h
        · -- transient failure
          constructor
          · intro call hc
            simp only [List.mem_singleton] at hc
            exact ⟨e.fieldName, .transient, hc, by simp⟩
          · intro field hf
            simp at hf
        · -- terminal failure
          constructor
          · intro call hc
            simp only [List.mem_singleton] at hc
            exact ⟨e.fieldName, .denied, hc, by simp⟩
          · intro field hf
            simp only [List.mem_singleton, Call.decrypt.injEq, and_true] at hf
            rw [hf]

theorem secretWrites_decrypt (calls : List Call)
    (h : ∀ call ∈ calls, ∃ field outcome, call = Call.decrypt field outcome) :
    secretWrites calls = [] := by
  induction calls with
  | nil => rfl
  | cons call rest ih =>
    obtain ⟨f, o, hc⟩ := h call (List.mem_cons_self _ _)
    subst hc
    simp only [secretWrites]
    exact ih (fun c hc => h c (List.mem_cons_of_mem _ hc))

theorem secretWrites_append (a b : List Call) :
    secretWrites (a ++ b) = secretWrites a ++ secretWrites b := by
  induction a with
  | nil => rfl
  | cons call rest ih =>
    cases call <;> simp [secretWrites, ih]

theorem lookup_cons_ne (k k2 : GoString × GoString) (v : GoString) (cache : Cache)
    (h : k2 ≠ k) : List.lookup k ((k2, v) :: cache) = List.lookup k cache := by
  have : (k == k2) = false := by
    rw [beq_eq_false_iff_ne]
    exact fun h2 => h h2.symm
  simp [List.lookup, this]

/-- The decrypt loop fails terminally when it reaches an entry that has to be
decrypted and that the gateway refuses, provided the gateway answers no
earlier entry with a retryable error: the failure names that entry's field, or
the field of an earlier entry that the gateway also refuses. -/
theorem decryptEntries_denied (env : Collaborators) (status : Status)
    (secret : Option SecretData) (e : DataEntry) (after : List DataEntry)
    (hdenied : env.decrypt e.ciphertextBlob e.keyID e.region = .denied)
    (hchanged : unchanged env status secret e = false) :
    ∀ (before : List DataEntry) (cache : Cache),
      cache.lookup (cacheKey env e) = none →
      (∀ x ∈ before, cacheKey env x ≠ cacheKey env e) →
      (∀ x ∈ before, env.decrypt x.ciphertextBlob x.keyID x.region ≠ .transient) →
      ∃ x ∈ before ++ [e], env.decrypt x.ciphertextBlob x.keyID x.region = .denied ∧
        (decryptEntries env status secret (before ++ e :: after) cache).fields
          = .failed .Terminal x.fieldName := by
  intro before
  induction before with
  | nil =>
    intro cache hmiss _ _
    refine ⟨e, by simp, hdenied, ?_⟩
    have hcur : (if status.fingerprints.lookup e.fieldName
          = some (env.fingerprint e.ciphertextBlob) then
        secret.bind (fun data => data.lookup e.fieldName) else none) = none := by
      split_ifs with h
      · cases hb : secret.bind (fun data => data.lookup e.fieldName) with
        | none => rfl
        | some v =>
          simp only [unchanged, h, hb, decide_True, Option.isSome_some, Bool.and_self] at hchanged
          exact absurd hchanged (by decide)
      · rfl
    unfold cacheKey at hmiss
    simp only [List.nil_append, decryptEntries, hcur, hmiss, hdenied]
  | cons x rest ih =>
    intro cache hmiss hkeys htrans
    have hx := htrans x (List.mem_cons_self _ _)
    have hkx := hkeys x (List.mem_cons_self _ _)
    have hlift : ∀ cache2 : Cache, cache2.lookup (cacheKey env e) = none →
        ∃ y ∈ x :: rest ++ [e], env.decrypt y.ciphertextBlob y.keyID y.region = .denied ∧
          (decryptEntries env status secret (rest ++ e :: after) cache2).fields
            = .failed .Terminal y.fieldName := by
      intro cache2 h2
      obtain ⟨y, hy, hyd, hyf⟩ := ih cache2 h2
        (fun z hz => hkeys z (List.mem_cons_of_mem _ hz))
        (fun z hz => htrans z (List.mem_cons_of_mem _ hz))
      exact ⟨y, List.mem_cons_of_mem _ hy, hyd, hyf⟩
    simp only [List.cons_append, decryptEntries]
    split
    · obtain ⟨y, hy, hyd, hyf⟩ := hlift cache hmiss
      exact ⟨y, hy, hyd, by simp only [Fields.add_ok_iff]; exact hyf⟩
    · split
      · obtain ⟨y, hy, hyd, hyf⟩ := hlift cache hmiss
        exact ⟨y, hy, hyd, by simp only [Fields.add_ok_iff]; exact hyf⟩
      · split
        · rename_i p _
          have hmiss2 : List.lookup (cacheKey env e)
              (((env.fingerprint x.ciphertextBlob, x.keyID), p) :: cache) = none := by
            have := lookup_cons_ne (cacheKey env e) (cacheKey env x) p cache hkx
            unfold cacheKey at this hmiss ⊢
            rw [this]
            exact hmiss
          obtain ⟨y, hy, hyd, hyf⟩ := hlift _ hmiss2
          exact ⟨y, hy, hyd, by simp only [Fields.add_ok_iff]; exact hyf⟩
        · rename_i ht
          exact absurd ht hx
        · rename_i hd
          exact ⟨x, by simp, hd, rfl⟩

theorem reconcile_deletionInvariant (env : Collaborators) (cache : Cache) (c : Cluster)
    (h : deletionInvariant c) : deletionInvariant (reconcile env cache c).cluster := by
  obtain ⟨r, hr, hd, hs⟩ := h
  unfold reconcile
  rw [hr]
  simp only [hd, if_true]
  by_cases hf : r.finalizer = true
  · simp only [hf, if_true, cleanup]
    by_cases hdel : env.deleteFails = true
    · simp only [hdel, if_true]
      exact ⟨_, rfl, hd, fun h => by simp [hf] at h⟩
    · simp only [hdel]
      exact ⟨_, rfl, hd, fun _ => rfl⟩
  · simp only [hf]
    exact ⟨r, hr, hd, hs⟩

theorem reconcilePasses_deletionInvariant (envs : List Collaborators) :
    ∀ (cache : Cache) (c : Cluster), deletionInvariant c →
      deletionInvariant (reconcilePasses envs cache c) := by
  induction envs with
  | nil => intro cache c h; exact h
  | cons env rest ih =>
    intro cache c h
    exact ih _ _ (reconcile_deletionInvariant env cache c h)


/-! ## Lemmas: adequacy of the loop bounds -/


theorem lastRuneStart_le (s : GoString) (lim : Int) :
    ∀ fuel start, lastRuneStart s lim fuel start ≤ start := by
  intro fuel
  induction fuel with
  | zero => intro start; simp [lastRuneStart]
  | succ fuel ih =>
    intro start
    unfold lastRuneStart
    split_ifs
    · exact le_refl _
    · have := ih (start - 1); omega
    · exact le_refl _

/-- The backward scan of `DecodeLastRuneInString` ends within its bound: more
iterations than `start - lim + 1` change nothing. -/
theorem lastRuneStart_fuel (s : GoString) (lim : Int) :
    ∀ (fuel : Nat) (start : Int) (extra : Nat), start - lim + 1 ≤ (fuel : Int) →
      lastRuneStart s lim (fuel + extra) start = lastRuneStart s lim fuel start := by
  intro fuel
  induction fuel with
  | zero =>
    intro start extra h
    cases extra with
    | zero => rfl
    | succ extra =>
      have : ¬ start ≥ lim := by omega
      simp [lastRuneStart, this]
  | succ fuel ih =>
    intro start extra h
    have e : fuel + 1 + extra = (fuel + extra) + 1 := by omega
    rw [e]
    unfold lastRuneStart
    split_ifs
    · rfl
    · exact ih (start - 1) extra (by push_cast at h; omega)
    · rfl

/-- The width returned by `DecodeLastRuneInString` for a non-empty string is at
least 1 and at most the length of the string. -/
theorem decodeLast_size (t : GoString) (ht : t ≠ []) :
    1 ≤ (DecodeLastRuneInString t).2 ∧ (DecodeLastRuneInString t).2 ≤ t.length := by
  have hlen : 0 < t.length := List.length_pos.mpr ht
  unfold DecodeLastRuneInString
  simp only
  rw [if_neg (by omega)]
  by_cases hr : t.getD ((t.length : Int) - 1).toNat 0 < RuneSelf
  · rw [if_pos hr]
    exact ⟨le_refl _, hlen⟩
  · rw [if_neg hr]
    generalize (if (t.length : Int) - (UTFMax : Nat) < 0 then (0 : Int)
        else (t.length : Int) - (UTFMax : Nat)) = lim
    have hle := lastRuneStart_le t lim UTFMax ((t.length : Int) - 1 - 1)
    generalize hst : (if lastRuneStart t lim UTFMax ((t.length : Int) - 1 - 1) < 0 then (0 : Int)
        else lastRuneStart t lim UTFMax ((t.length : Int) - 1 - 1)) = start
    have hst0 : 0 ≤ start ∧ start < t.length := by
      rw [← hst]
      split_ifs <;> omega
    by_cases hne : start + ((DecodeRuneInString
        ((t.drop start.toNat).take ((t.length : Int) - start).toNat)).2 : Int) ≠ t.length
    · rw [if_pos hne]
      exact ⟨le_refl _, hlen⟩
    · rw [if_neg hne]
      have heq : start + ((DecodeRuneInString
        ((t.drop start.toNat).take ((t.length : Int) - start).toNat)).2 : Int) = t.length := by
        simpa using hne
      omega

/-- The loop of `indexFunc` ends within `len(s) - i` iterations. -/
theorem indexFuncFrom_fuel (s : GoString) (f : Nat → Bool) (truth : Bool) :
    ∀ fuel i extra, s.length - i ≤ fuel →
      indexFuncFrom s f truth (fuel + extra) i = indexFuncFrom s f truth fuel i := by
  intro fuel
  induction fuel with
  | zero =>
    intro i extra h
    cases extra with
    | zero => rfl
    | succ extra =>
      have : ¬ i < s.length := by omega
      simp [indexFuncFrom, this]
  | succ fuel ih =>
    intro i extra h
    have e : fuel + 1 + extra = (fuel + extra) + 1 := by omega
    rw [e]
    simp only [indexFuncFrom]
    split_ifs with h1 h2
    · rfl
    · have hne : s.drop i ≠ [] := by
        intro hd
        have := List.drop_eq_nil_iff.mp hd
        omega
      have := decode_size _ hne
      exact ih _ extra (by omega)
    · rfl

/-- The loop of `lastIndexFunc` ends within `i` iterations. -/
theorem lastIndexFuncFrom_fuel (s : GoString) (f : Nat → Bool) (truth : Bool) :
    ∀ fuel i extra, i ≤ fuel → i ≤ s.length →
      lastIndexFuncFrom s f truth (fuel + extra) i = lastIndexFuncFrom s f truth fuel i := by
  intro fuel
  induction fuel with
  | zero =>
    intro i extra h _
    cases extra with
    | zero => rfl
    | succ extra =>
      have : ¬ i > 0 := by omega
      simp [lastIndexFuncFrom, this]
  | succ fuel ih =>
    intro i extra h hl
    have e : fuel + 1 + extra = (fuel + extra) + 1 := by omega
    rw [e]
    simp only [lastIndexFuncFrom]
    split_ifs with h1 h2
    · rfl
    · have hl2 : (s.take i).length = i := by
        rw [List.length_take]; omega
      have hne : s.take i ≠ [] := by
        intro hd
        rw [hd] at hl2
        simp at hl2
        omega
      have := decodeLast_size _ hne
      rw [hl2] at this
      exact ih _ extra (by omega) (by omega)
    · rfl

/-- The second loop of `TrimSpace` ends within `stop - start` iterations. -/
theorem trimSpaceStop_fuel (s : GoString) (start : Nat) :
    ∀ fuel stop extra, stop - start ≤ fuel →
      trimSpaceStop s start (fuel + extra) stop = trimSpaceStop s start fuel stop := by
  intro fuel
  induction fuel with
  | zero =>
    intro stop extra h
    rw [trimSpaceStop_of_le s start _ stop (by omega),
      trimSpaceStop_of_le s start _ stop (by omega)]
  | succ fuel ih =>
    intro stop extra h
    have e : fuel + 1 + extra = (fuel + extra) + 1 := by omega
    rw [e]
    simp only [trimSpaceStop]
    split_ifs
    · rfl
    · rfl
    · exact ih _ extra (by omega)
    · rfl

/-- The first loop of `TrimSpace` ends within `len(s) - start` iterations. -/
theorem trimSpaceStart_fuel (s : GoString) :
    ∀ fuel start extra, s.length - start ≤ fuel →
      trimSpaceStart s (fuel + extra) start = trimSpaceStart s fuel start := by
  intro fuel
  induction fuel with
  | zero =>
    intro start extra h
    cases extra with
    | zero => rfl
    | succ extra =>
      have : ¬ start < s.length := by omega
      simp [trimSpaceStart, this]
  | succ fuel ih =>
    intro start extra h
    have e : fuel + 1 + extra = (fuel + extra) + 1 := by omega
    rw [e]
    simp only [trimSpaceStart]
    split_ifs
    · rfl
    · rfl
    · exact ih _ extra (by omega)
    · rfl

/-- The loop of `LastIndex` started above the last possible position finds
what the loop started at that position finds. -/
theorem lastIndexFrom_fuel (s substr : GoString) (hs : substr ≠ []) :
    ∀ extra, lastIndexFrom s substr (s.length - substr.length + 1 + extra)
      = lastIndexFrom s substr (s.length - substr.length) := by
  intro extra
  induction extra with
  | zero =>
    have hd : ((s.drop (s.length - substr.length + 1)).length) < substr.length := by
      have := List.length_pos.mpr hs
      simp only [List.length_drop]
      omega
    have hp : substr.isPrefixOf (s.drop (s.length - substr.length + 1)) = false := by
      rw [Bool.eq_false_iff]
      intro h
      have := (List.isPrefixOf_iff_prefix.mp h).length_le
      omega
    simp [lastIndexFrom, hp]
  | succ extra ih =>
    have hd : ((s.drop (s.length - substr.length + 1 + extra + 1)).length) < substr.length := by
      have := List.length_pos.mpr hs
      simp only [List.length_drop]
      omega
    have hp : substr.isPrefixOf (s.drop (s.length - substr.length + 1 + extra + 1)) = false := by
      rw [Bool.eq_false_iff]
      intro h
      have := (List.isPrefixOf_iff_prefix.mp h).length_le
      omega
    have e : s.length - substr.length + 1 + (extra + 1)
        = (s.length - substr.length + 1 + extra) + 1 := by omega
    rw [e, lastIndexFrom, hp]
    simpa using ih


/-! ## Lemmas: exact decoding of multi-byte encodings -/


theorem first_two (b : Nat) (ha : 0xC2 ≤ b) (hb : b < 0xE0) : first b = 0x02 := by
  unfold first
  split_ifs <;> omega

theorem first_three (b : Nat) (ha : 0xE0 ≤ b) (hb : b < 0xF0) :
    (b = 0xE0 ∧ first b = 0x13) ∨ (b = 0xED ∧ first b = 0x23) ∨
    (b ≠ 0xE0 ∧ b ≠ 0xED ∧ first b = 0x03) := by
  unfold first
  split_ifs <;> omega

theorem first_four (b : Nat) (ha : 0xF0 ≤ b) (hb : b ≤ 0xF4) :
    (b = 0xF0 ∧ first b = 0x34) ∨ (b = 0xF4 ∧ first b = 0x44) ∨
    (b ≠ 0xF0 ∧ b ≠ 0xF4 ∧ first b = 0x04) := by
  unfold first
  split_ifs <;> omega

theorem decode_two (b0 b1 : Nat) (t : GoString) (ha : 0xC2 ≤ b0) (hb : b0 < 0xE0)
    (hc : 0x80 ≤ b1) (hd : b1 ≤ 0xBF) :
    DecodeRuneInString (b0 :: b1 :: t) = ((b0 % 32) * 64 + b1 % 64, 2) := by
  have hr : ¬ (b1 < 0x80 ∨ 0xBF < b1) := by omega
  have hx := first_two b0 ha hb
  simp only [DecodeRuneInString, hx, as, xx, acceptRanges, List.length_cons,
    List.getD_cons_zero, List.getD_cons_succ, rune2]
  simp [and_07, hr]

theorem decode_three (b0 b1 b2 : Nat) (t : GoString) (ha : 0xE0 ≤ b0) (hb : b0 < 0xF0)
    (hc : 0x80 ≤ b1) (hd : b1 ≤ 0xBF) (he : b0 = 0xE0 → 0xA0 ≤ b1) (hf : b0 = 0xED → b1 ≤ 0x9F)
    (hg : 0x80 ≤ b2) (hh : b2 ≤ 0xBF) :
    DecodeRuneInString (b0 :: b1 :: b2 :: t)
      = ((b0 % 16) * 4096 + (b1 % 64) * 64 + b2 % 64, 3) := by
  have hr2 : ¬ (b2 < 0x80 ∨ 0xBF < b2) := by omega
  rcases first_three b0 ha hb with ⟨h1, hx⟩ | ⟨h1, hx⟩ | ⟨_, _, hx⟩
  · have hr : ¬ (b1 < 0xA0 ∨ 0xBF < b1) := by have := he h1; omega
    simp only [DecodeRuneInString, hx, as, xx, acceptRanges, List.length_cons,
      List.getD_cons_zero, List.getD_cons_succ, rune3]
    simp [and_07, hr, hr2]
  · have hr : ¬ (b1 < 0x80 ∨ 0x9F < b1) := by have := hf h1; omega
    simp only [DecodeRuneInString, hx, as, xx, acceptRanges, List.length_cons,
      List.getD_cons_zero, List.getD_cons_succ, rune3]
    simp [and_07, hr, hr2]
  · have hr : ¬ (b1 < 0x80 ∨ 0xBF < b1) := by omega
    simp only [DecodeRuneInString, hx, as, xx, acceptRanges, List.length_cons,
      List.getD_cons_zero, List.getD_cons_succ, rune3]
    simp [and_07, hr, hr2]

theorem decode_four (b0 b1 b2 b3 : Nat) (t : GoString) (ha : 0xF0 ≤ b0) (hb : b0 ≤ 0xF4)
    (hc : 0x80 ≤ b1) (hd : b1 ≤ 0xBF) (he : b0 = 0xF0 → 0x90 ≤ b1) (hf : b0 = 0xF4 → b1 ≤ 0x8F)
    (hg : 0x80 ≤ b2) (hh : b2 ≤ 0xBF) (hi : 0x80 ≤ b3) (hj : b3 ≤ 0xBF) :
    DecodeRuneInString (b0 :: b1 :: b2 :: b3 :: t)
      = ((b0 % 8) * 262144 + (b1 % 64) * 4096 + (b2 % 64) * 64 + b3 % 64, 4) := by
  have hr2 : ¬ (b2 < 0x80 ∨ 0xBF < b2) := by omega
  have hr3 : ¬ (b3 < 0x80 ∨ 0xBF < b3) := by omega
  rcases first_four b0 ha hb with ⟨h1, hx⟩ | ⟨h1, hx⟩ | ⟨_, _, hx⟩
  · have hr : ¬ (b1 < 0x90 ∨ 0xBF < b1) := by have := he h1; omega
    simp only [DecodeRuneInString, hx, as, xx, acceptRanges, List.length_cons,
      List.getD_cons_zero, List.getD_cons_succ, rune4]
    simp [and_07, hr, hr2, hr3]
  · have hr : ¬ (b1 < 0x80 ∨ 0x8F < b1) := by have := hf h1; omega
    simp only [DecodeRuneInString, hx, as, xx, acceptRanges, List.length_cons,
      List.getD_cons_zero, List.getD_cons_succ, rune4]
    simp [and_07, hr, hr2, hr3]
  · have hr : ¬ (b1 < 0x80 ∨ 0xBF < b1) := by omega
    simp only [DecodeRuneInString, hx, as, xx, acceptRanges, List.length_cons,
      List.getD_cons_zero, List.getD_cons_succ, rune4]
    simp [and_07, hr, hr2, hr3]


/-! ## Lemmas: decoding from the end -/


theorem getD_append_at (p w : GoString) (k : Nat) :
    (p ++ w).getD (p.length + k) 0 = w.getD k 0 := by
  simp [List.getD, List.getElem?_append_right]

theorem decodeLast_one (p : GoString) (b : Nat) (hb : b < 0x80) :
    DecodeLastRuneInString (p ++ [b]) = (b, 1) := by
  unfold DecodeLastRuneInString
  simp only [List.length_append, List.length_singleton]
  have e1 : (((p.length + 1 : Nat) : Int) - 1).toNat = p.length + 0 := by omega
  rw [if_neg (by omega), e1, getD_append_at]
  simp [RuneSelf, hb]

theorem decodeLast_two (p : GoString) (b0 b1 : Nat) (h0 : RuneStart b0 = true)
    (h1 : 0x80 ≤ b1) :
    DecodeLastRuneInString (p ++ [b0, b1]) =
      if (DecodeRuneInString [b0, b1]).2 ≠ 2 then (RuneError, 1)
      else DecodeRuneInString [b0, b1] := by
  unfold DecodeLastRuneInString
  simp only [List.length_append, List.length_cons, List.length_nil]
  have e1 : (((p.length + (0 + 1 + 1) : Nat) : Int) - 1).toNat = p.length + 1 := by omega
  rw [if_neg (by omega), e1, getD_append_at]
  have hr : ¬ ([b0, b1].getD 1 0 < RuneSelf) := by simp [RuneSelf]; omega
  rw [if_neg hr]
  have hloop : lastRuneStart (p ++ [b0, b1])
      (if ((p.length + (0 + 1 + 1) : Nat) : Int) - (UTFMax : Nat) < 0 then 0
        else ((p.length + (0 + 1 + 1) : Nat) : Int) - (UTFMax : Nat)) UTFMax
      (((p.length + (0 + 1 + 1) : Nat) : Int) - 1 - 1) = (p.length : Int) := by
    have e2 : (((p.length + (0 + 1 + 1) : Nat) : Int) - 1 - 1) = (p.length : Int) := by omega
    rw [e2]
    unfold UTFMax lastRuneStart
    have hge : (p.length : Int) ≥ (if ((p.length + (0 + 1 + 1) : Nat) : Int) - ((4 : Nat) : Int) < 0
        then 0 else ((p.length + (0 + 1 + 1) : Nat) : Int) - ((4 : Nat) : Int)) := by
      split_ifs <;> omega
    rw [if_pos hge]
    have e3 : (p.length : Int).toNat = p.length + 0 := by omega
    rw [e3, getD_append_at]
    simp [h0]
  rw [hloop]
  have hnn : ¬ ((p.length : Int) < 0) := by omega
  simp only [hnn, if_false]
  have e4 : (p.length : Int).toNat = p.length := by omega
  have e5 : (((p.length + (0 + 1 + 1) : Nat) : Int) - (p.length : Int)).toNat = 2 := by omega
  rw [e4, e5]
  have hsub : ((p ++ [b0, b1]).drop p.length).take 2 = [b0, b1] := by simp
  rw [hsub]
  have e6 : ∀ n : Nat, ((p.length : Int) + (n : Int) ≠ ((p.length + (0 + 1 + 1) : Nat) : Int))
      ↔ n ≠ 2 := by
    intro n; constructor <;> intro h <;> omega
  simp only [e6]

theorem decodeLast_three (p : GoString) (b0 b1 b2 : Nat) (h0 : RuneStart b0 = true)
    (h1 : RuneStart b1 = false) (h2 : 0x80 ≤ b2) :
    DecodeLastRuneInString (p ++ [b0, b1, b2]) =
      if (DecodeRuneInString [b0, b1, b2]).2 ≠ 3 then (RuneError, 1)
      else DecodeRuneInString [b0, b1, b2] := by
  unfold DecodeLastRuneInString
  simp only [List.length_append, List.length_cons, List.length_nil]
  have e1 : (((p.length + (0 + 1 + 1 + 1) : Nat) : Int) - 1).toNat = p.length + 2 := by omega
  rw [if_neg (by omega), e1, getD_append_at]
  have hr : ¬ ([b0, b1, b2].getD 2 0 < RuneSelf) := by simp [RuneSelf]; omega
  rw [if_neg hr]
  have hloop : lastRuneStart (p ++ [b0, b1, b2])
      (if ((p.length + (0 + 1 + 1 + 1) : Nat) : Int) - (UTFMax : Nat) < 0 then 0
        else ((p.length + (0 + 1 + 1 + 1) : Nat) : Int) - (UTFMax : Nat)) UTFMax
      (((p.length + (0 + 1 + 1 + 1) : Nat) : Int) - 1 - 1) = (p.length : Int) := by
    have e2 : (((p.length + (0 + 1 + 1 + 1) : Nat) : Int) - 1 - 1) = ((p.length : Int) + 1) := by
      omega
    rw [e2]
    unfold UTFMax lastRuneStart
    have hge : (p.length : Int) + 1 ≥
        (if ((p.length + (0 + 1 + 1 + 1) : Nat) : Int) - ((4 : Nat) : Int) < 0
        then 0 else ((p.length + (0 + 1 + 1 + 1) : Nat) : Int) - ((4 : Nat) : Int)) := by
      split_ifs <;> omega
    rw [if_pos hge]
    have e3 : ((p.length : Int) + 1).toNat = p.length + 1 := by omega
    rw [e3, getD_append_at]
    have hb1 : RuneStart ([b0, b1, b2].getD 1 0) = false := by simpa using h1
    rw [hb1]
    simp only [Bool.false_eq_true, if_false]
    unfold lastRuneStart
    have hge2 : (p.length : Int) + 1 - 1 ≥
        (if ((p.length + (0 + 1 + 1 + 1) : Nat) : Int) - ((4 : Nat) : Int) < 0
        then 0 else ((p.length + (0 + 1 + 1 + 1) : Nat) : Int) - ((4 : Nat) : Int)) := by
      split_ifs <;> omega
    rw [if_pos hge2]
    have e4 : ((p.length : Int) + 1 - 1).toNat = p.length + 0 := by omega
    rw [e4, getD_append_at]
    simp [h0]
  rw [hloop]
  have hnn : ¬ ((p.length : Int) < 0) := by omega
  simp only [hnn, if_false]
  have e4 : (p.length : Int).toNat = p.length := by omega
  have e5 : (((p.length + (0 + 1 + 1 + 1) : Nat) : Int) - (p.length : Int)).toNat = 3 := by omega
  rw [e4, e5]
  have hsub : ((p ++ [b0, b1, b2]).drop p.length).take 3 = [b0, b1, b2] := by simp
  rw [hsub]
  have e6 : ∀ n : Nat,
      ((p.length : Int) + (n : Int) ≠ ((p.length + (0 + 1 + 1 + 1) : Nat) : Int)) ↔ n ≠ 3 := by
    intro n; constructor <;> intro h <;> omega
  simp only [e6]

/-- Every white-space encoding at the end of a string decodes, from the end,
to a white-space rune of the encoding's width. -/
theorem decodeLast_whiteSpace (w : GoString) (hw : w ∈ whiteSpaceEncodings) (p : GoString) :
    IsSpace (DecodeLastRuneInString (p ++ w)).1 = true ∧
    (DecodeLastRuneInString (p ++ w)).2 = w.length := by
  simp only [whiteSpaceEncodings, List.mem_cons, List.mem_singleton, List.not_mem_nil,
    or_false] at hw
  rcases hw with rfl | rfl | rfl | rfl | rfl | rfl | rfl | rfl | rfl | rfl | rfl | rfl | rfl |
    rfl | rfl | rfl | rfl | rfl | rfl | rfl | rfl | rfl | rfl | rfl | rfl
  all_goals first
    | (rw [decodeLast_one p _ (by decide)]; exact ⟨by decide, rfl⟩)
    | (rw [decodeLast_two p _ _ (by decide) (by decide)]; exact ⟨by decide, by decide⟩)
    | (rw [decodeLast_three p _ _ _ (by decide) (by decide) (by decide)];
       exact ⟨by decide, by decide⟩)


/-! ## Lemmas: what `TrimSpace` removes -/


/-- The width decoded at a byte that is followed by nothing, or by a byte that
is not a continuation byte, is 1. -/
theorem decode_size_one (b : Nat) (rest : GoString)
    (h : ∀ c t, rest = c :: t → c < 0x80 ∨ 0xBF < c) : (DecodeRuneInString (b :: rest)).2 = 1 := by
  rcases decode_cases (b :: rest) (by simp) with h1 | ⟨b0, t, _, _, h1⟩ |
    ⟨b0, b1, t, hs, _, _, hc, hd, _⟩ | ⟨b0, b1, b2, t, hs, _, _, hc, hd, _⟩ |
    ⟨b0, b1, b2, b3, t, hs, _, _, hc, hd, _⟩
  · rw [h1]
  · rw [h1]
  all_goals
    simp only [List.cons.injEq] at hs
    have := h b1 _ hs.2
    omega

/-- The first byte of a non-empty white-space string is not a continuation
byte. -/
theorem OnlyWhiteSpace.head_not_continuation {rest : GoString} (h : OnlyWhiteSpace rest) :
    ∀ c t, rest = c :: t → c < 0x80 ∨ 0xBF < c := by
  intro c t hr
  cases h with
  | nil => simp at hr
  | cons w s hw hs =>
    simp only [whiteSpaceEncodings, List.mem_cons, List.mem_singleton, List.not_mem_nil,
      or_false] at hw
    rcases hw with rfl | rfl | rfl | rfl | rfl | rfl | rfl | rfl | rfl | rfl | rfl | rfl | rfl |
      rfl | rfl | rfl | rfl | rfl | rfl | rfl | rfl | rfl | rfl | rfl | rfl
    all_goals
      simp only [List.cons_append, List.nil_append, List.cons.injEq] at hr
      omega

/-- A string whose decoded width is its whole length keeps that width when
white space is appended. -/
theorem decode_size_append (s rest : GoString) (hs : s ≠ [])
    (hsz : (DecodeRuneInString s).2 = s.length) (hrest : OnlyWhiteSpace rest) :
    (DecodeRuneInString (s ++ rest)).2 = s.length := by
  have hnc := hrest.head_not_continuation
  have hne : s ++ rest ≠ [] := by simp [hs]
  have hsz2 := decode_size (s ++ rest) hne
  rcases decode_cases s hs with h1 | ⟨b0, t, rfl, hb, h1⟩ |
    ⟨b0, b1, t, rfl, ha, hb, hc, hd, h1⟩ |
    ⟨b0, b1, b2, t, rfl, ha, hb, hc, hd, he, hf, hg, hh, h1⟩ |
    ⟨b0, b1, b2, b3, t, rfl, ha, hb, hc, hd, he, hf, hg, hh, hi, hj, h1⟩
  · -- invalid: s is a single byte
    rw [h1] at hsz
    cases s with
    | nil => exact absurd rfl hs
    | cons b t =>
      have ht : t = [] := by
        apply List.length_eq_zero.mp
        simp only [List.length_cons] at hsz
        omega
      subst ht
      simpa using decode_size_one b rest hnc
  · rw [h1] at hsz
    have ht : t = [] := by
      apply List.length_eq_zero.mp
      simp only [List.length_cons] at hsz
      omega
    subst ht
    rw [List.singleton_append, decode_ascii b0 rest hb]
    rfl
  · rw [h1] at hsz
    have ht : t = [] := by
      apply List.length_eq_zero.mp
      simp only [List.length_cons] at hsz
      omega
    subst ht
    have := decode_two b0 b1 rest ha hb hc hd
    simp only [List.cons_append, List.nil_append, this, List.length_cons, List.length_nil]
  · rw [h1] at hsz
    have ht : t = [] := by
      apply List.length_eq_zero.mp
      simp only [List.length_cons] at hsz
      omega
    subst ht
    have := decode_three b0 b1 b2 rest ha hb hc hd he hf hg hh
    simp only [List.cons_append, List.nil_append, this, List.length_cons, List.length_nil]
  · rw [h1] at hsz
    have ht : t = [] := by
      apply List.length_eq_zero.mp
      simp only [List.length_cons] at hsz
      omega
    subst ht
    have := decode_four b0 b1 b2 b3 rest ha hb hc hd he hf hg hh hi hj
    simp only [List.cons_append, List.nil_append, this, List.length_cons, List.length_nil]


theorem noLeadingSpace_nil : NoLeadingSpace [] := by
  intro w hw h
  have := whiteSpaceEncodings_ne_nil w hw
  have h2 := h.length_le
  simp only [List.length_nil] at h2
  omega

theorem noTrailingSpace_nil : NoTrailingSpace [] := by
  intro w hw h
  have := whiteSpaceEncodings_ne_nil w hw
  have h2 := h.length_le
  simp only [List.length_nil] at h2
  omega

theorem noLeadingSpace_of_decode {r : GoString}
    (h : IsSpace (DecodeRuneInString r).1 = false) : NoLeadingSpace r := by
  intro w hw hp
  obtain ⟨t, ht⟩ := hp
  have := (decode_whiteSpace w hw t).1
  rw [ht, h] at this
  exact absurd this (by decide)

theorem noTrailingSpace_of_decodeLast {r : GoString}
    (h : IsSpace (DecodeLastRuneInString r).1 = false) : NoTrailingSpace r := by
  intro w hw hp
  obtain ⟨t, ht⟩ := hp
  have := (decodeLast_whiteSpace w hw t).1
  rw [ht, h] at this
  exact absurd this (by decide)

theorem noLeadingSpace_of_prefix {r v : GoString} (hv : NoLeadingSpace v) (hr : r <+: v) :
    NoLeadingSpace r :=
  fun w hw hp => hv w hw (hp.trans hr)

/-- The width decoded from the end is the width decoded forward at the place
where the last rune starts. -/
theorem decodeLast_forward (t : GoString) (ht : t ≠ []) :
    (DecodeRuneInString (t.drop (t.length - (DecodeLastRuneInString t).2))).2
      = (DecodeLastRuneInString t).2 := by
  have hlen : 0 < t.length := List.length_pos.mpr ht
  have hone : (DecodeRuneInString (t.drop (t.length - 1))).2 = 1 := by
    have hne : t.drop (t.length - 1) ≠ [] := by
      intro h
      have := List.drop_eq_nil_iff.mp h
      omega
    have := decode_size _ hne
    simp only [List.length_drop] at this
    omega
  unfold DecodeLastRuneInString
  simp only
  rw [if_neg (by omega)]
  by_cases hr : t.getD ((t.length : Int) - 1).toNat 0 < RuneSelf
  · rw [if_pos hr]
    exact hone
  · rw [if_neg hr]
    generalize (if (t.length : Int) - (UTFMax : Nat) < 0 then (0 : Int)
        else (t.length : Int) - (UTFMax : Nat)) = lim
    have hle := lastRuneStart_le t lim UTFMax ((t.length : Int) - 1 - 1)
    generalize hst : (if lastRuneStart t lim UTFMax ((t.length : Int) - 1 - 1) < 0 then (0 : Int)
        else lastRuneStart t lim UTFMax ((t.length : Int) - 1 - 1)) = start
    have hst0 : 0 ≤ start ∧ start < t.length := by
      rw [← hst]
      split_ifs <;> omega
    by_cases hne : start + ((DecodeRuneInString
        ((t.drop start.toNat).take ((t.length : Int) - start).toNat)).2 : Int) ≠ t.length
    · rw [if_pos hne]
      exact hone
    · rw [if_neg hne]
      have heq : start + ((DecodeRuneInString
        ((t.drop start.toNat).take ((t.length : Int) - start).toNat)).2 : Int) = t.length := by
        simpa using hne
      have hsub : (t.drop start.toNat).take ((t.length : Int) - start).toNat
          = t.drop start.toNat := by
        apply List.take_of_length_le
        simp only [List.length_drop]
        omega
      rw [hsub] at heq ⊢
      have e : t.length - (DecodeRuneInString (t.drop start.toNat)).2 = start.toNat := by omega
      rw [e]

/-- The backward scan, in full: either the scanned prefix is white space, or
the scan stops at the last rune that is not white space, and everything after
that rune is white space. -/
theorem lastIndexFuncFrom_spec (s : GoString) :
    ∀ fuel i, i ≤ fuel → i ≤ s.length →
      (lastIndexFuncFrom s IsSpace false fuel i = -1 ∧ OnlyWhiteSpace (s.take i)) ∨
      (∃ j, 0 < j ∧ j ≤ i ∧ OnlyWhiteSpace ((s.take i).drop j) ∧
        IsSpace (DecodeLastRuneInString (s.take j)).1 = false ∧
        lastIndexFuncFrom s IsSpace false fuel i
          = ((j - (DecodeLastRuneInString (s.take j)).2 : Nat) : Int)) := by
  intro fuel
  induction fuel with
  | zero =>
    intro i hi _
    have : i = 0 := by omega
    subst this
    left
    exact ⟨rfl, by simpa using OnlyWhiteSpace.nil⟩
  | succ fuel ih =>
    intro i hi hlen
    by_cases hpos : i > 0
    · have hl2 : (s.take i).length = i := by rw [List.length_take]; omega
      by_cases hsp : IsSpace (DecodeLastRuneInString (s.take i)).1 = true
      · obtain ⟨p, w, hw, hpw, hsz⟩ := decodeLast_space _ hsp
        have hw1 := whiteSpaceEncodings_ne_nil w hw
        have hstep : lastIndexFuncFrom s IsSpace false (fuel + 1) i =
            lastIndexFuncFrom s IsSpace false fuel
              (i - (DecodeLastRuneInString (s.take i)).2) := by
          simp [lastIndexFuncFrom, hpos, hsp]
        rw [hstep, hsz]
        have hl : (s.take i).length = p.length + w.length := by rw [hpw]; simp
        have htake : s.take (i - w.length) = p := by
          have h1 : s.take (i - w.length) = (s.take i).take (i - w.length) := by
            rw [List.take_take]
            congr 1
            omega
          rw [h1, hpw]
          have h2 : i - w.length = p.length := by omega
          rw [h2]
          simp
        rcases ih (i - w.length) (by omega) (by omega) with ⟨h1, h2⟩ | ⟨j, hj0, hji, hws, hns, hres⟩
        · left
          refine ⟨h1, ?_⟩
          rw [hpw]
          rw [htake] at h2
          exact h2.append (OnlyWhiteSpace.single hw)
        · right
          refine ⟨j, hj0, by omega, ?_, hns, hres⟩
          rw [hpw]
          rw [htake] at hws
          have hjp : j ≤ p.length := by omega
          rw [List.drop_append_of_le_length hjp]
          exact hws.append (OnlyWhiteSpace.single hw)
      · have hstep : lastIndexFuncFrom s IsSpace false (fuel + 1) i =
            ((i - (DecodeLastRuneInString (s.take i)).2 : Nat) : Int) := by
          simp [lastIndexFuncFrom, hpos, hsp]
        right
        refine ⟨i, hpos, le_refl _, ?_, by simpa using hsp, hstep⟩
        have : (s.take i).drop i = [] := List.drop_eq_nil_of_le (by omega)
        rw [this]
        exact OnlyWhiteSpace.nil
    · have : i = 0 := by omega
      subst this
      left
      exact ⟨by simp [lastIndexFuncFrom], by simpa using OnlyWhiteSpace.nil⟩

/-- The function `TrimRightFunc(v, IsSpace)` removes a white-space suffix of `v`,
and what it returns does not end in white space. -/
theorem TrimRightFunc_spec (v : GoString) :
    ∃ post, v = TrimRightFunc v IsSpace ++ post ∧ OnlyWhiteSpace post ∧
      NoTrailingSpace (TrimRightFunc v IsSpace) := by
  rcases lastIndexFuncFrom_spec v v.length v.length (le_refl _) (le_refl _) with
    ⟨h1, h2⟩ | ⟨j, hj0, hjl, hws, hns, hres⟩
  · have hidx : lastIndexFunc v IsSpace false = -1 := h1
    have hres : TrimRightFunc v IsSpace = [] := by
      unfold TrimRightFunc
      simp only [hidx]
      rw [if_neg (by omega)]
      simp
    rw [hres]
    rw [List.take_length] at h2
    exact ⟨v, by simp, h2, noTrailingSpace_nil⟩
  · have hidx : lastIndexFunc v IsSpace false
        = ((j - (DecodeLastRuneInString (v.take j)).2 : Nat) : Int) := hres
    rw [List.take_length] at hws
    have hl2 : (v.take j).length = j := by rw [List.length_take]; omega
    have htne : v.take j ≠ [] := by
      intro h
      rw [h] at hl2
      simp at hl2
      omega
    have hsz := decodeLast_size _ htne
    rw [hl2] at hsz
    have hfw := decodeLast_forward _ htne
    rw [hl2] at hfw
    generalize hsize : (DecodeLastRuneInString (v.take j)).2 = size at hidx hsz hfw
    -- the bytes of the last rune, followed by the white-space suffix
    have hdrop : v.drop (j - size) = (v.take j).drop (j - size) ++ v.drop j := by
      have h1 : v.drop (j - size) = (v.take j ++ v.drop j).drop (j - size) := by
        rw [List.take_append_drop]
      rw [h1, List.drop_append_of_le_length (by omega)]
    have hlast_len : ((v.take j).drop (j - size)).length = size := by
      simp only [List.length_drop, hl2]
      omega
    have hlast_ne : (v.take j).drop (j - size) ≠ [] := by
      intro h
      rw [h] at hlast_len
      simp at hlast_len
      omega
    have hwid : (DecodeRuneInString (v.drop (j - size))).2 = size := by
      rw [hdrop]
      have := decode_size_append _ (v.drop j) hlast_ne (by rw [hfw, hlast_len]) hws
      rw [this, hlast_len]
    have hres2 : TrimRightFunc v IsSpace = v.take j := by
      unfold TrimRightFunc
      simp only [hidx]
      have e0 : (((j - size : Nat) : Int)).toNat = j - size := by omega
      rw [e0]
      by_cases hc : ((j - size : Nat) : Int) ≥ 0 ∧ v.getD (j - size) 0 ≥ RuneSelf
      · rw [if_pos hc, hwid]
        congr 1
        omega
      · rw [if_neg hc]
        have hlt : v.getD (j - size) 0 < 0x80 := by
          have : ¬ (v.getD (j - size) 0 ≥ RuneSelf) := fun h => hc ⟨by omega, h⟩
          unfold RuneSelf at this
          omega
        have hd := drop_eq_getD_cons v (j - size) (by omega)
        rw [hd, decode_ascii _ _ hlt] at hwid
        simp only at hwid
        congr 1
        omega
    rw [hres2]
    exact ⟨v.drop j, (List.take_append_drop j v).symm, hws, noTrailingSpace_of_decodeLast hns⟩


/-- The forward scan, in full: either everything from `i` on is white space,
or the scan stops at the first rune that is not white space, and everything
between `i` and that rune is white space. -/
theorem indexFuncFrom_spec (s : GoString) :
    ∀ fuel i, s.length - i ≤ fuel →
      (indexFuncFrom s IsSpace false fuel i = -1 ∧ OnlyWhiteSpace (s.drop i)) ∨
      (∃ k, i ≤ k ∧ k < s.length ∧ indexFuncFrom s IsSpace false fuel i = (k : Int) ∧
        OnlyWhiteSpace ((s.drop i).take (k - i)) ∧
        IsSpace (DecodeRuneInString (s.drop k)).1 = false) := by
  intro fuel
  induction fuel with
  | zero =>
    intro i hi
    left
    have : s.drop i = [] := List.drop_eq_nil_of_le (by omega)
    exact ⟨rfl, by rw [this]; exact OnlyWhiteSpace.nil⟩
  | succ fuel ih =>
    intro i hi
    by_cases hlt : i < s.length
    · have hne : s.drop i ≠ [] := by
        intro h
        have := List.drop_eq_nil_iff.mp h
        omega
      have hsz := decode_size (s.drop i) hne
      simp only [List.length_drop] at hsz
      by_cases hsp : IsSpace (DecodeRuneInString (s.drop i)).1 = true
      · have hstep : indexFuncFrom s IsSpace false (fuel + 1) i =
            indexFuncFrom s IsSpace false fuel (i + (DecodeRuneInString (s.drop i)).2) := by
          simp [indexFuncFrom, hlt, hsp]
        rw [hstep]
        obtain ⟨w, hw, t, hwt, hwsz⟩ := decode_space _ hsp
        generalize (DecodeRuneInString (s.drop i)).2 = size at hsz hwsz ⊢
        have hdd : s.drop (i + size) = t := by
          rw [← List.drop_drop, hwt, hwsz]
          simp
        rcases ih (i + size) (by omega) with ⟨h1, h2⟩ | ⟨k, hk1, hk2, hres, hws, hns⟩
        · left
          refine ⟨h1, ?_⟩
          rw [hwt]
          rw [hdd] at h2
          exact OnlyWhiteSpace.cons w t hw h2
        · right
          refine ⟨k, by omega, hk2, hres, ?_, hns⟩
          rw [hdd] at hws
          rw [hwt]
          have e : k - i = w.length + (k - (i + size)) := by omega
          rw [e, List.take_append]
          exact OnlyWhiteSpace.cons w _ hw hws
      · have hstep : indexFuncFrom s IsSpace false (fuel + 1) i = (i : Int) := by
          simp [indexFuncFrom, hlt, hsp]
        right
        refine ⟨i, le_refl _, hlt, hstep, ?_, by simpa using hsp⟩
        simpa using OnlyWhiteSpace.nil
    · left
      have : s.drop i = [] := List.drop_eq_nil_of_le (by omega)
      exact ⟨by simp [indexFuncFrom, hlt], by rw [this]; exact OnlyWhiteSpace.nil⟩

/-- The function `TrimLeftFunc(u, IsSpace)` removes a white-space prefix of `u`,
and what it returns does not start with white space. -/
theorem TrimLeftFunc_spec (u : GoString) :
    ∃ pre, u = pre ++ TrimLeftFunc u IsSpace ∧ OnlyWhiteSpace pre ∧
      NoLeadingSpace (TrimLeftFunc u IsSpace) := by
  rcases indexFuncFrom_spec u u.length 0 (by omega) with
    ⟨h1, h2⟩ | ⟨k, _, hk2, hres, hws, hns⟩
  · have hidx : indexFunc u IsSpace false = -1 := h1
    have hres : TrimLeftFunc u IsSpace = [] := by
      simp [TrimLeftFunc, hidx]
    rw [hres]
    rw [List.drop_zero] at h2
    exact ⟨u, by simp, h2, noLeadingSpace_nil⟩
  · have hidx : indexFunc u IsSpace false = (k : Int) := hres
    have hres2 : TrimLeftFunc u IsSpace = u.drop k := by
      unfold TrimLeftFunc
      simp only [hidx]
      rw [if_neg (by omega)]
      simp
    rw [hres2]
    rw [List.drop_zero, Nat.sub_zero] at hws
    exact ⟨u.take k, (List.take_append_drop k u).symm, hws, noLeadingSpace_of_decode hns⟩

/-- The function `TrimFunc(u, IsSpace)` removes a white-space prefix and a
white-space suffix of `u`, and what it returns neither starts nor ends with
white space. -/
theorem TrimFunc_spec (u : GoString) :
    ∃ pre post, u = pre ++ TrimFunc u IsSpace ++ post ∧ OnlyWhiteSpace pre ∧
      OnlyWhiteSpace post ∧ NoLeadingSpace (TrimFunc u IsSpace) ∧
      NoTrailingSpace (TrimFunc u IsSpace) := by
  obtain ⟨pre, hu, hpre, hlead⟩ := TrimLeftFunc_spec u
  obtain ⟨post, hv, hpost, htrail⟩ := TrimRightFunc_spec (TrimLeftFunc u IsSpace)
  refine ⟨pre, post, ?_, hpre, hpost, ?_, htrail⟩
  · unfold TrimFunc
    rw [List.append_assoc, ← hv]
    exact hu
  · unfold TrimFunc
    exact noLeadingSpace_of_prefix hlead ⟨post, hv.symm⟩

theorem decodeLast_ascii (t : GoString) (ht : t ≠ []) (h : t.getD (t.length - 1) 0 < 0x80) :
    DecodeLastRuneInString t = (t.getD (t.length - 1) 0, 1) := by
  have := getD_last_append t ht
  rw [this]
  rw [decodeLast_one _ _ h]
  simp

/-- The second loop of `TrimSpace`, in full, when the byte at `start` is an
ASCII byte other than a space: it removes a white-space suffix of
`s[start:stop]` and returns a string that starts with that byte and does not
end in white space. -/
theorem trimSpaceStop_spec (s : GoString) (start : Nat)
    (h1 : s.getD start 0 < RuneSelf) (h2 : asciiSpace (s.getD start 0) = 0) :
    ∀ fuel stop, start < stop → stop ≤ s.length → stop ≤ fuel + start →
      ∃ r post, trimSpaceStop s start fuel stop = s.getD start 0 :: r ∧
        (s.drop start).take (stop - start) = s.getD start 0 :: r ++ post ∧
        OnlyWhiteSpace post ∧ NoTrailingSpace (s.getD start 0 :: r) := by
  have hsub : ∀ stop, start < stop → stop ≤ s.length →
      (s.drop start).take (stop - start)
        = s.getD start 0 :: (s.drop (start + 1)).take (stop - start - 1) := by
    intro stop hs hl
    rw [drop_eq_getD_cons s start (by omega)]
    have : stop - start = (stop - start - 1) + 1 := by omega
    rw [this, List.take_succ_cons]
    simp
  have hlast : ∀ stop, start < stop → stop ≤ s.length →
      ((s.drop start).take (stop - start)).getD
        (((s.drop start).take (stop - start)).length - 1) 0 = s.getD (stop - 1) 0 := by
    intro stop hs hl
    have hlen : ((s.drop start).take (stop - start)).length = stop - start := by
      simp only [List.length_take, List.length_drop]
      omega
    rw [hlen]
    simp only [List.getD_eq_getElem?_getD]
    rw [List.getElem?_take_of_lt (by omega), List.getElem?_drop]
    have e : start + (stop - start - 1) = stop - 1 := by omega
    rw [e]
  intro fuel
  induction fuel with
  | zero => intro stop hs _ hf; omega
  | succ fuel ih =>
    intro stop hs hl hf
    have hgt : stop > start := hs
    by_cases hc : s.getD (stop - 1) 0 ≥ RuneSelf
    · have hstep : trimSpaceStop s start (fuel + 1) stop =
          TrimRightFunc ((s.drop start).take (stop - start)) IsSpace := by
        simp only [trimSpaceStop, if_pos hgt, if_pos hc]
      rw [hstep]
      obtain ⟨post, hv, hpost, htrail⟩ :=
        TrimRightFunc_spec ((s.drop start).take (stop - start))
      have hne : TrimRightFunc ((s.drop start).take (stop - start)) IsSpace ≠ [] := by
        apply TrimRightFunc_ne_nil
        rw [hsub stop hs hl]
        intro hw
        have := hw.head_ascii h1
        omega
      generalize TrimRightFunc ((s.drop start).take (stop - start)) IsSpace = res
        at hv htrail hne
      cases res with
      | nil => exact absurd rfl hne
      | cons b r =>
        rw [hsub stop hs hl] at hv
        simp only [List.cons_append, List.cons.injEq] at hv
        rw [← hv.1] at htrail ⊢
        refine ⟨r, post, rfl, ?_, hpost, htrail⟩
        rw [hsub stop hs hl, hv.2]
        rfl
    · by_cases hsp : asciiSpace (s.getD (stop - 1) 0) = 0
      · have hstep : trimSpaceStop s start (fuel + 1) stop =
            (s.drop start).take (stop - start) := by
          simp only [trimSpaceStop, if_pos hgt, if_neg hc, if_pos hsp]
        rw [hstep]
        refine ⟨(s.drop (start + 1)).take (stop - start - 1), [], hsub stop hs hl,
          by rw [List.append_nil]; exact hsub stop hs hl, OnlyWhiteSpace.nil, ?_⟩
        rw [← hsub stop hs hl]
        apply noTrailingSpace_of_decodeLast
        have hne : (s.drop start).take (stop - start) ≠ [] := by
          rw [hsub stop hs hl]; simp
        have hlt : s.getD (stop - 1) 0 < 0x80 := by
          unfold RuneSelf at hc; omega
        rw [decodeLast_ascii _ hne (by rw [hlast stop hs hl]; exact hlt), hlast stop hs hl]
        simp only
        rw [Bool.eq_false_iff]
        intro hsp2
        have := (IsSpace_iff _).mp hsp2
        unfold asciiSpace at hsp
        split_ifs at hsp with hh
        omega
      · have hstep : trimSpaceStop s start (fuel + 1) stop =
            trimSpaceStop s start fuel (stop - 1) := by
          simp only [trimSpaceStop, if_pos hgt, if_neg hc, if_neg hsp]
        rw [hstep]
        have hneq : stop - 1 ≠ start := by
          intro h
          rw [h] at hsp
          exact hsp h2
        obtain ⟨r, post, hr, hsplit, hpost, htrail⟩ :=
          ih (stop - 1) (by omega) (by omega) (by omega)
        refine ⟨r, post ++ [s.getD (stop - 1) 0], hr, ?_, ?_, htrail⟩
        · rw [← List.append_assoc, ← hsplit]
          have e1 : stop - start = (stop - 1 - start) + 1 := by omega
          rw [e1, List.take_succ]
          congr 1
          simp only [List.getElem?_drop]
          have e2 : start + (stop - 1 - start) = stop - 1 := by omega
          rw [e2, List.getElem?_eq_getElem (by omega)]
          simp [List.getD, List.getElem?_eq_getElem (show stop - 1 < s.length by omega)]
        · apply hpost.append
          have hb : s.getD (stop - 1) 0 = 9 ∨ s.getD (stop - 1) 0 = 10 ∨
              s.getD (stop - 1) 0 = 11 ∨ s.getD (stop - 1) 0 = 12 ∨
              s.getD (stop - 1) 0 = 13 ∨ s.getD (stop - 1) 0 = 32 := by
            unfold asciiSpace at hsp
            by_contra hcon
            exact hsp (if_neg hcon)
          apply OnlyWhiteSpace.single
          rcases hb with h | h | h | h | h | h <;> rw [h] <;> decide


/-- The first loop of `TrimSpace`, in full: started at `start`, it removes a
white-space prefix and a white-space suffix of `s[start:]`, and what it
returns neither starts nor ends with white space. -/
theorem trimSpaceStart_spec (s : GoString) :
    ∀ fuel start, s.length - start ≤ fuel →
      ∃ pre post, s.drop start = pre ++ trimSpaceStart s fuel start ++ post ∧
        OnlyWhiteSpace pre ∧ OnlyWhiteSpace post ∧
        NoLeadingSpace (trimSpaceStart s fuel start) ∧
        NoTrailingSpace (trimSpaceStart s fuel start) := by
  have hend : ∀ fuel start, s.length ≤ start →
      trimSpaceStart s fuel start = [] ∧ s.drop start = [] := by
    intro fuel start h
    have hst := trimSpaceStop_of_le s start s.length s.length h
    have hd : s.drop start = [] := List.drop_eq_nil_of_le h
    have hlt : ¬ start < s.length := by omega
    cases fuel with
    | zero => exact ⟨by simp only [trimSpaceStart, hst], hd⟩
    | succ fuel => exact ⟨by simp only [trimSpaceStart, if_neg hlt, hst], hd⟩
  intro fuel
  induction fuel with
  | zero =>
    intro start h
    obtain ⟨e1, e2⟩ := hend 0 start (by omega)
    rw [e1, e2]
    exact ⟨[], [], rfl, OnlyWhiteSpace.nil, OnlyWhiteSpace.nil, noLeadingSpace_nil,
      noTrailingSpace_nil⟩
  | succ fuel ih =>
    intro start h
    by_cases hlt : start < s.length
    · have hd := drop_eq_getD_cons s start hlt
      by_cases hc : s.getD start 0 ≥ RuneSelf
      · have hstep : trimSpaceStart s (fuel + 1) start = TrimFunc (s.drop start) IsSpace := by
          simp only [trimSpaceStart, if_pos hlt, if_pos hc]
        rw [hstep]
        exact TrimFunc_spec _
      · have hlt2 : s.getD start 0 < RuneSelf := by omega
        by_cases hsp : asciiSpace (s.getD start 0) = 0
        · have hstep : trimSpaceStart s (fuel + 1) start =
              trimSpaceStop s start s.length s.length := by
            simp only [trimSpaceStart, if_pos hlt, if_neg hc, if_pos hsp]
          rw [hstep]
          obtain ⟨r, post, hr, hsplit, hpost, htrail⟩ :=
            trimSpaceStop_spec s start hlt2 hsp s.length s.length hlt (le_refl _) (by omega)
          rw [hr]
          have hall : (s.drop start).take (s.length - start) = s.drop start := by
            apply List.take_of_length_le
            simp
          rw [hall] at hsplit
          refine ⟨[], post, by simpa using hsplit, OnlyWhiteSpace.nil, hpost, ?_, htrail⟩
          apply noLeadingSpace_of_decode
          rw [decode_ascii _ _ (by unfold RuneSelf at hlt2; exact hlt2)]
          simp only
          rw [Bool.eq_false_iff]
          intro hsp2
          have := (IsSpace_iff _).mp hsp2
          unfold asciiSpace at hsp
          unfold RuneSelf at hlt2
          split_ifs at hsp with hh
          omega
        · have hstep : trimSpaceStart s (fuel + 1) start = trimSpaceStart s fuel (start + 1) := by
            simp only [trimSpaceStart, if_pos hlt, if_neg hc, if_neg hsp]
          rw [hstep]
          obtain ⟨pre, post, hsplit, hpre, hpost, hlead, htrail⟩ := ih (start + 1) (by omega)
          refine ⟨s.getD start 0 :: pre, post, ?_, ?_, hpost, hlead, htrail⟩
          · rw [hd, hsplit]
            simp
          · exact (OnlyWhiteSpace.cons_ascii hsp).mpr hpre
    · obtain ⟨e1, e2⟩ := hend (fuel + 1) start (by omega)
      rw [e1, e2]
      exact ⟨[], [], rfl, OnlyWhiteSpace.nil, OnlyWhiteSpace.nil, noLeadingSpace_nil,
        noTrailingSpace_nil⟩

/-- The function `TrimSpace` removes a white-space prefix and a white-space
suffix of `s`, and what it returns neither starts nor ends with white space:
all leading and trailing white space is removed, and nothing else. -/
theorem TrimSpace_spec (s : GoString) :
    ∃ pre post, s = pre ++ TrimSpace s ++ post ∧ OnlyWhiteSpace pre ∧ OnlyWhiteSpace post ∧
      NoLeadingSpace (TrimSpace s) ∧ NoTrailingSpace (TrimSpace s) := by
  have := trimSpaceStart_spec s s.length 0 (by omega)
  simpa [TrimSpace] using this

/-! ## Theorems -/

/-- C4: `getLogger` selects level Debug with source locations exactly for the
string "debug" (case-sensitive); every other string, among them "info",
"DEBUG", "warn" and the empty string, gives level Info without source
locations; the default flag value "info" gives level Info. -/
theorem getLogger_level_selection (ToLower : GoString → GoString) :
    (∀ logLevel : GoString,
      ((getLogger ToLower logLevel).Level = LevelDebug ∧
          (getLogger ToLower logLevel).AddSource = true
        ↔ logLevel = ascii ("debug")) ∧
      (logLevel ≠ ascii ("debug") →
        (getLogger ToLower logLevel).Level = LevelInfo ∧
          (getLogger ToLower logLevel).AddSource = false)) ∧
    (∀ l ∈ [ascii ("info"), ascii ("DEBUG"), ascii ("warn"), ascii ("")],
      (getLogger ToLower l).Level = LevelInfo ∧ (getLogger ToLower l).AddSource = false) ∧
    (getLogger ToLower defaultFlags.logLevel).Level = LevelInfo ∧
    LevelDebug ≠ LevelInfo := by
  refine ⟨fun logLevel => ⟨?_, ?_⟩, ?_, ?_, ?_⟩
  · by_cases h : logLevel = ascii ("debug")
    · simp [getLogger, h]
    · simp [getLogger, h, LevelDebug, LevelInfo]
  · intro h
    simp [getLogger, h]
  · intro l hl
    simp only [List.mem_cons, List.mem_singleton, List.not_mem_nil, or_false] at hl
    rcases hl with rfl | rfl | rfl | rfl <;> exact ⟨rfl, rfl⟩
  · rfl
  · decide

/-- C3: `EncryptString` returns `(nil, e)` without calling Encrypt when loading
the configuration for `region` fails with `e`; otherwise it calls Encrypt
exactly once, with `KeyId = keyID` and `Plaintext = str`, and returns
`(nil, e')` when that call fails with `e'` and `(CiphertextBlob, nil)` when it
succeeds; the bytes are nil whenever the error is non-nil. -/
theorem EncryptString_contract {Cfg Err : Type} (aws : Aws Cfg Err)
    (str keyID region : GoString) :
    (∀ e, aws.LoadDefaultConfig region = .error e →
      (EncryptString aws str keyID region).bytes = none ∧
      (EncryptString aws str keyID region).err = some e ∧
      encryptCalls (EncryptString aws str keyID region).calls = []) ∧
    (∀ cfg, aws.LoadDefaultConfig region = .ok cfg →
      encryptCalls (EncryptString aws str keyID region).calls = [⟨keyID, str⟩] ∧
      (∀ e, aws.Encrypt cfg ⟨keyID, str⟩ = .error e →
        (EncryptString aws str keyID region).bytes = none ∧
        (EncryptString aws str keyID region).err = some e) ∧
      (∀ res, aws.Encrypt cfg ⟨keyID, str⟩ = .ok res →
        (EncryptString aws str keyID region).bytes = res.CiphertextBlob ∧
        (EncryptString aws str keyID region).err = none)) ∧
    ((EncryptString aws str keyID region).err ≠ none →
      (EncryptString aws str keyID region).bytes = none) := by
  refine ⟨?_, ?_, ?_⟩
  · intro e h
    simp [EncryptString, h, encryptCalls]
  · intro cfg h
    refine ⟨?_, ?_, ?_⟩
    · cases h2 : aws.Encrypt cfg ⟨keyID, str⟩ <;>
        simp [EncryptString, h, h2, encryptCalls]
    · intro e h2
      simp [EncryptString, h, h2]
    · intro res h2
      simp [EncryptString, h, h2]
  · cases h : aws.LoadDefaultConfig region with
    | error e => simp [EncryptString, h]
    | ok cfg =>
      cases h2 : aws.Encrypt cfg ⟨keyID, str⟩ <;> simp [EncryptString, h, h2]

/-- C8: for an attribute with key "source" whose value renders as
`&{function file line}`, where `file` contains a '/' and `line` is a non-empty
string of decimal digits, both slice expressions of `ReplaceAttr` are in bounds
(no panic) and the result keeps the key "source" with the string value
`basename(file) ++ ":" ++ line`; the result does not depend on the function
name nor on `groups`. -/
theorem ReplaceAttr_source_rewrite (ToLower : GoString → GoString) (logLevel : GoString)
    (groups : List GoString) (v : Value) (function file line : GoString)
    (hs : v.String = sourceRendering function file line)
    (hfile : 47 ∈ file) (hline : line ≠ [])
    (hdigits : ∀ d ∈ line, 48 ≤ d ∧ d ≤ 57) :
    slice v.String (LastIndex v.String (ascii ("/")) + 1) (LastIndex v.String (ascii (" ")))
      = some (afterLastSlash file) ∧
    slice v.String (LastIndex v.String (ascii (" ")) + 1) ((v.String.length : Int) - 1)
      = some line ∧
    (getLogger ToLower logLevel).ReplaceAttr groups ⟨SourceKey, v⟩
      = some ⟨SourceKey, .string (afterLastSlash file ++ ascii (":") ++ line)⟩ ∧
    (∀ (groups2 : List GoString) (v2 : Value) (function2 : GoString),
      v2.String = sourceRendering function2 file line →
      (getLogger ToLower logLevel).ReplaceAttr groups2 ⟨SourceKey, v2⟩
        = (getLogger ToLower logLevel).ReplaceAttr groups ⟨SourceKey, v⟩) := by
  show _ ∧ _ ∧ ReplaceAttr ToLower groups ⟨SourceKey, v⟩ = _ ∧
    ∀ (groups2 : List GoString) (v2 : Value) (function2 : GoString),
      v2.String = sourceRendering function2 file line →
      ReplaceAttr ToLower groups2 ⟨SourceKey, v2⟩ = ReplaceAttr ToLower groups ⟨SourceKey, v⟩
  have _ := hline
  obtain ⟨h1, h2, h3⟩ := ReplaceAttr_source_aux ToLower groups v function file line hs hfile hdigits
  refine ⟨h1, h2, h3, ?_⟩
  intro groups2 v2 function2 hs2
  rw [h3]
  exact (ReplaceAttr_source_aux ToLower groups2 v2 function2 file line hs2 hfile hdigits).2.2

/-- C8 witness: `&{main.main /go/src/app/main.go 101}` becomes `main.go:101`. -/
theorem ReplaceAttr_source_rewrite_witness :
    (getLogger id (ascii ("debug"))).ReplaceAttr []
        ⟨SourceKey, .other (ascii ("&\x7bmain.main /go/src/app/main.go 101\x7d"))⟩
      = some ⟨SourceKey, .string (ascii ("main.go:101"))⟩ :=
  (ReplaceAttr_source_rewrite id (ascii ("debug")) []
    (.other (ascii ("&\x7bmain.main /go/src/app/main.go 101\x7d")))
    (ascii ("main.main")) (ascii ("/go/src/app/main.go")) (ascii ("101"))
    (by decide) (by decide) (by decide) (by decide)).2.2.1


/-- C1 (as stated, refuted): with `--namespaced`, `POD_NAMESPACE` unset and a
readable namespace file that holds only a newline, no namespace is handed to a
manager: `main` logs the error and exits with status 1. -/
theorem main_namespace_blank_file_counterexample :
    namespacedFlags.namespaced = true ∧
    blankFileOs.Getenv podNamespaceVar = [] ∧
    blankFileOs.ReadFile namespaceFile = some [10] ∧
    (main namespacedFlags blankFileOs).outcome = .exit noNamespaceMessage 1 ∧
    ¬ (∃ opts, (main namespacedFlags blankFileOs).outcome = .newManager opts ∧
        opts.Namespace = TrimSpace [10]) := by
  refine ⟨by decide, by decide, by decide, by decide, ?_⟩
  rintro ⟨opts, h, _⟩
  have h2 : (main namespacedFlags blankFileOs).outcome = .exit noNamespaceMessage 1 := by decide
  rw [h2] at h
  exact Startup.noConfusion h

/-- C1 (amended): the namespace handed to the manager is (a) empty when
`--namespaced` is false, with no operating-system call made; (b) the value of
`POD_NAMESPACE`, verbatim, when `--namespaced` is true and the variable is
non-empty, the file not being read; (c) the trimmed content of the
service-account namespace file when `--namespaced` is true, `POD_NAMESPACE` is
empty, the file is readable and its content is not only white space. -/
theorem main_namespace_resolution (flags : Flags) (os : Os) :
    (flags.namespaced = false →
      (∃ opts, (main flags os).outcome = .newManager opts ∧ opts.Namespace = []) ∧
      (main flags os).calls = []) ∧
    (flags.namespaced = true → os.Getenv podNamespaceVar ≠ [] →
      (∃ opts, (main flags os).outcome = .newManager opts ∧
        opts.Namespace = os.Getenv podNamespaceVar) ∧
      (∀ path, OsCall.readFile path ∉ (main flags os).calls)) ∧
    (∀ data, flags.namespaced = true → os.Getenv podNamespaceVar = [] →
      os.ReadFile namespaceFile = some data → ¬ OnlyWhiteSpace data →
      ∃ opts, (main flags os).outcome = .newManager opts ∧
        opts.Namespace = TrimSpace data ∧
        (∃ leading trailing, data = leading ++ opts.Namespace ++ trailing ∧
          OnlyWhiteSpace leading ∧ OnlyWhiteSpace trailing) ∧
        NoLeadingSpace opts.Namespace ∧ NoTrailingSpace opts.Namespace) := by
  refine ⟨?_, ?_, ?_⟩
  · intro hn
    simp [main, hn, managerOptions]
  · intro hn he
    have hlen : (os.Getenv podNamespaceVar).length ≠ 0 := by
      intro h; exact he (List.length_eq_zero.mp h)
    simp [main, hn, namespacedNs, hlen, managerOptions]
  · intro data hn he hf hw
    have ht : TrimSpace data ≠ [] := fun h => hw ((TrimSpace_eq_nil data).mp h)
    have hlen : (TrimSpace data).length ≠ 0 := by
      intro h; exact ht (List.length_eq_zero.mp h)
    obtain ⟨leading, trailing, hsplit, hl, ht2, hnl, hnt⟩ := TrimSpace_spec data
    refine ⟨managerOptions flags (TrimSpace data), ?_, rfl, ⟨leading, trailing, hsplit, hl, ht2⟩,
      hnl, hnt⟩
    simp [main, hn, namespacedNs, he, hf, hlen]

/-- C1 witness: with `--namespaced`, `POD_NAMESPACE` unset and the file holding
" kube-system" followed by a newline, the manager gets "kube-system". -/
theorem main_namespace_resolution_witness :
    (∃ opts, (main namespacedFlags (osWith [] (some (ascii (" kube-system\n"))))).outcome
        = .newManager opts ∧ opts.Namespace = TrimSpace (ascii (" kube-system\n"))) ∧
    TrimSpace (ascii (" kube-system\n")) = ascii ("kube-system") :=
  ⟨(((main_namespace_resolution namespacedFlags (osWith [] (some (ascii (" kube-system\n"))))).2.2
      (ascii (" kube-system\n")) (by decide) (by decide) (by decide)
      (fun h => absurd ((TrimSpace_eq_nil _).mpr h) (by decide))).imp
        (fun _ h => ⟨h.1, h.2.1⟩)),
    by decide⟩

/-- C2: `main` logs "Mode is namespaced, but unable to determine own namespace
name..." and exits with status 1, before any manager is created, if and only
if `--namespaced` is true, `POD_NAMESPACE` is empty and the namespace file is
unreadable or holds only white space; whenever the manager is created with
`--namespaced` true its namespace is non-empty. -/
theorem main_namespaced_failure (flags : Flags) (os : Os) :
    ((main flags os).outcome = .exit noNamespaceMessage 1 ↔
      flags.namespaced = true ∧ os.Getenv podNamespaceVar = [] ∧
        (os.ReadFile namespaceFile = none ∨
          ∃ data, os.ReadFile namespaceFile = some data ∧ OnlyWhiteSpace data)) ∧
    (∀ msg code, (main flags os).outcome = .exit msg code →
      msg = noNamespaceMessage ∧ code = 1) ∧
    List.isPrefixOf (ascii ("Mode is namespaced, but unable to determine own namespace name"))
      noNamespaceMessage = true ∧
    (∀ opts, flags.namespaced = true → (main flags os).outcome = .newManager opts →
      opts.Namespace ≠ []) := by
  refine ⟨?_, ?_, by decide, ?_⟩
  · cases hn : flags.namespaced
    · simp [main, hn]
    · by_cases he : os.Getenv podNamespaceVar = []
      · cases hf : os.ReadFile namespaceFile with
        | none => simp [main, hn, namespacedNs, he, hf]
        | some data =>
          by_cases ht : TrimSpace data = []
          · have hw := (TrimSpace_eq_nil data).mp ht
            simp [main, hn, namespacedNs, he, hf, ht, hw]
          · have hw : ¬ OnlyWhiteSpace data := fun h => ht ((TrimSpace_eq_nil data).mpr h)
            simp [main, hn, namespacedNs, he, hf, ht, hw]
      · simp [main, hn, namespacedNs, he]
  · intro msg code h
    unfold main at h
    simp only at h
    split_ifs at h
    simp at h
    exact ⟨h.1.symm, h.2.symm⟩
  · intro opts hn h hns
    unfold main at h
    simp only [hn, if_true] at h
    split_ifs at h with hlen
    simp only [Startup.newManager.injEq] at h
    rw [← h] at hns
    simp only [managerOptions] at hns
    exact hlen (by rw [hns]; rfl)

/-- C2 witness: an unreadable namespace file and a blank one both end in the
logged error and exit status 1; a file holding a namespace does not. -/
theorem main_namespaced_failure_witness :
    (main namespacedFlags (osWith [] none)).outcome = .exit noNamespaceMessage 1 ∧
    (main namespacedFlags blankFileOs).outcome = .exit noNamespaceMessage 1 ∧
    (main namespacedFlags (osWith [] (some (ascii ("default"))))).outcome
      ≠ .exit noNamespaceMessage 1 :=
  ⟨((main_namespaced_failure namespacedFlags (osWith [] none)).1).mpr
      ⟨by decide, by decide, Or.inl (by decide)⟩,
    by decide, by decide⟩

/-- The manager options of `main`: `LeaderElection` is the value of the
`--enable-leader-election` flag (default false) and the lease identifier is
the fixed string "e976aec6.h3poteto.dev". -/
theorem main_leaderElection_wiring (flags : Flags) (os : Os) (opts : Options)
    (h : (main flags os).outcome = .newManager opts) :
    opts.LeaderElection = flags.enableLeaderElection ∧
    opts.LeaderElectionID = ascii ("e976aec6.h3poteto.dev") ∧
    opts.MetricsBindAddress = flags.metricsAddr ∧ opts.Port = 9443 ∧
    defaultFlags.enableLeaderElection = false := by
  unfold main at h
  simp only at h
  split_ifs at h <;> simp only [Startup.newManager.injEq] at h <;> subst h <;>
    simp [managerOptions, defaultFlags]

/-- C6: for a `KMSSecret` that carries the finalizer and a deletion timestamp,
in every reconcile pass the finalizer is removed only after the deletion of
the generated secret has been confirmed (an already absent secret counting as
success); when the delete fails the finalizer stays and the deletion of the
`KMSSecret` does not complete; and after any sequence of passes the finalizer
is gone only if the generated secret is. -/
theorem cleanup_deletion_ordering (env : Collaborators) (cache : Cache) (c : Cluster)
    (r : KMSSecret) (hr : c.kmsSecret = some r) (hf : r.finalizer = true)
    (hd : r.deletionTimestamp = true) :
    (∀ before after, (reconcile env cache c).calls = before ++ Call.removeFinalizer :: after →
      Call.deleteSecret .deleted ∈ before ∨ Call.deleteSecret .notFound ∈ before) ∧
    (env.deleteFails = true →
      Call.removeFinalizer ∉ (reconcile env cache c).calls ∧
      (∃ r2, (reconcile env cache c).cluster.kmsSecret = some r2 ∧ r2.finalizer = true) ∧
      (reconcile env cache c).cluster.secret = c.secret ∧
      (garbageCollect (reconcile env cache c).cluster).kmsSecret ≠ none ∧
      (reconcile env cache c).result = .Requeue) ∧
    (env.deleteFails = false →
      (reconcile env cache c).calls =
        [.deleteSecret (if c.secret.isSome then .deleted else .notFound), .removeFinalizer] ∧
      (reconcile env cache c).cluster.secret = none ∧
      (garbageCollect (reconcile env cache c).cluster).kmsSecret = none) ∧
    (∀ envs : List Collaborators, deletionInvariant (reconcilePasses envs cache c)) := by
  have hrec : reconcile env cache c = cleanup env cache c r := by
    simp [reconcile, hr, hf, hd]
  rw [hrec]
  refine ⟨?_, ?_, ?_, ?_⟩
  · intro before after hcalls
    cases hdel : env.deleteFails
    · simp only [cleanup, hdel, Bool.false_eq_true, if_false] at hcalls
      cases before with
      | nil => simp at hcalls
      | cons x rest =>
        simp only [List.cons_append, List.cons.injEq] at hcalls
        obtain ⟨hx, _⟩ := hcalls
        subst hx
        split_ifs <;> simp
    · simp only [cleanup, hdel, if_true] at hcalls
      cases before with
      | nil => simp at hcalls
      | cons x rest =>
        simp only [List.cons_append, List.cons.injEq] at hcalls
        have := congrArg List.length hcalls.2
        simp at this
        omega
  · intro hdel
    simp [cleanup, hdel, garbageCollect, hf, hd]
  · intro hdel
    simp [cleanup, hdel, garbageCollect, hd]
  · intro envs
    apply reconcilePasses_deletionInvariant
    exact ⟨r, hr, hd, fun h => by rw [hf] at h; exact absurd h (by decide)⟩

/-- C6 witness: a resource under deletion whose secret delete fails keeps its
finalizer and is requeued; a later pass with a working delete removes the
secret and then the finalizer. -/
theorem cleanup_deletion_ordering_witness :
    (reconcile failingDelete [] deletingCluster).calls = [.deleteSecret .failed] ∧
    (garbageCollect (reconcile failingDelete [] deletingCluster).cluster).kmsSecret ≠ none ∧
    (reconcile workingGateway [] deletingCluster).calls
      = [.deleteSecret .deleted, .removeFinalizer] ∧
    (∀ before after, (reconcile workingGateway [] deletingCluster).calls
        = before ++ Call.removeFinalizer :: after →
      Call.deleteSecret .deleted ∈ before ∨ Call.deleteSecret .notFound ∈ before) :=
  ⟨by decide, by decide, by decide,
    (cleanup_deletion_ordering workingGateway [] deletingCluster deletingResource
      (by decide) (by decide) (by decide)).1⟩

/-- C7 (as stated, refuted): each of these resources has two data entries, and
the gateway refuses the ciphertext of field "b" with a terminal error; yet no
pass ends with `Ready=False/Terminal`.  A throttled field "a" is met first and
the pass is requeued; an empty ciphertext is an invalid spec; an unchanged
field "b" is skipped and the secret is patched; a cached plaintext for "b", or
one cached for "a" under the same fingerprint and key, is used and the secret
is created; a resource under deletion is cleaned up. -/
theorem reconcile_terminal_field_counterexample :
    (∀ c ∈ [throttledFirst, emptyCiphertext, unchangedField, cachedField, sharedCiphertext,
        deletedResource],
      ∃ r, c.kmsSecret = some r ∧ 2 ≤ r.dataEntries.length ∧
        ∃ e ∈ r.dataEntries, e.fieldName = ascii ("b") ∧
          mixedGateway.decrypt e.ciphertextBlob e.keyID e.region = .denied) ∧
    readyAfter (reconcile mixedGateway [] throttledFirst)
      = some (.isFalse .Retryable (some (ascii ("a")))) ∧
    (reconcile mixedGateway [] throttledFirst).result = .Requeue ∧
    readyAfter (reconcile mixedGateway [] emptyCiphertext)
      = some (.isFalse .InvalidSpec none) ∧
    readyAfter (reconcile mixedGateway [] unchangedField) = some .isTrue ∧
    secretWrites (reconcile mixedGateway [] unchangedField).calls
      = [.patchSecret [(ascii ("a"), ascii ("s3cr3t")), (ascii ("b"), ascii ("old"))]] ∧
    readyAfter (reconcile mixedGateway staleCache cachedField) = some .isTrue ∧
    secretWrites (reconcile mixedGateway staleCache cachedField).calls
      = [.createSecret [(ascii ("a"), ascii ("s3cr3t")), (ascii ("b"), ascii ("stale"))]] ∧
    readyAfter (reconcile mixedGateway [] sharedCiphertext) = some .isTrue ∧
    secretWrites (reconcile mixedGateway [] sharedCiphertext).calls
      = [.createSecret [(ascii ("a"), ascii ("n3wpass")), (ascii ("b"), ascii ("n3wpass"))]] ∧
    readyAfter (reconcile mixedGateway [] deletedResource) = some .unknown := by
  refine ⟨?_, by decide, by decide, by decide, by decide, by decide, by decide, by decide,
    by decide, by decide, by decide⟩
  intro c hc
  simp only [List.mem_cons, List.mem_singleton, List.not_mem_nil, or_false] at hc
  rcases hc with rfl | rfl | rfl | rfl | rfl | rfl
  all_goals
    refine ⟨_, rfl, by decide, ?_⟩
    refine ⟨_, List.mem_cons_of_mem _ (List.mem_cons_self _ _), by decide, by decide⟩

/-- C7 (amended): for a `KMSSecret` that is not being deleted and whose spec is
valid, if the Decryption Gateway refuses an entry with a terminal error, the
entry has to be decrypted in this pass (it is not unchanged, and its
fingerprint and key are neither in the cache nor shared with an earlier
entry), and the gateway answers no earlier entry with a retryable error, then
one reconcile pass writes nothing to the generated secret (it stays as it
was, or absent), the status becomes `Ready=False/Terminal`, and it names a
field that the gateway refuses: this entry's, or an earlier such entry's. -/
theorem reconcile_all_or_nothing (env : Collaborators) (cache : Cache) (c : Cluster)
    (r : KMSSecret) (before : List DataEntry) (e : DataEntry) (after : List DataEntry)
    (hr : c.kmsSecret = some r)
    (hdel : r.deletionTimestamp = false)
    (hvalid : validSpec r.dataEntries = true)
    (hsplit : r.dataEntries = before ++ e :: after)
    (hdenied : env.decrypt e.ciphertextBlob e.keyID e.region = .denied)
    (hchanged : unchanged env r.status c.secret e = false)
    (hmiss : cache.lookup (cacheKey env e) = none)
    (hkeys : ∀ x ∈ before, cacheKey env x ≠ cacheKey env e)
    (htrans : ∀ x ∈ before, env.decrypt x.ciphertextBlob x.keyID x.region ≠ .transient) :
    secretWrites (reconcile env cache c).calls = [] ∧
    (reconcile env cache c).cluster.secret = c.secret ∧
    (reconcile env cache c).result = .TerminalFailure ∧
    ∃ x ∈ before ++ [e], env.decrypt x.ciphertextBlob x.keyID x.region = .denied ∧
      ∃ r2, (reconcile env cache c).cluster.kmsSecret = some r2 ∧
        r2.status.ready = .isFalse .Terminal (some x.fieldName) ∧
        r2.dataEntries = r.dataEntries := by
  have hnorm : reconcile env cache c = normalPath env cache c r := by
    simp [reconcile, hr, hdel]
  obtain ⟨x, hx, hxd, hxf⟩ := decryptEntries_denied env r.status c.secret e after hdenied
    hchanged before cache hmiss hkeys htrans
  rw [← hsplit] at hxf
  have hd := decryptEntries_calls env r.status c.secret r.dataEntries cache
  have hw : secretWrites (decryptEntries env r.status c.secret r.dataEntries cache).calls = [] :=
    secretWrites_decrypt _ (fun call hc => by
      obtain ⟨f, o, h1, _⟩ := hd.1 call hc
      exact ⟨f, o, h1⟩)
  rw [hnorm]
  refine ⟨?_, ?_, ?_, x, hx, hxd, ?_⟩
  all_goals
    unfold normalPath
    cases hfin : r.finalizer <;>
      simp [hfin, hvalid, hxf, secretWrites_append, hw, secretWrites]

/-- C7 witness: field "a" decrypts, field "b" is malformed; the secret keeps
the last good value of "a", nothing is written and the pass is a terminal
failure that names "b". -/
theorem reconcile_all_or_nothing_witness :
    (reconcile workingGateway [] partialCluster).cluster.secret
      = some [(ascii ("a"), ascii ("old"))] ∧
    secretWrites (reconcile workingGateway [] partialCluster).calls = [] ∧
    readyAfter (reconcile workingGateway [] partialCluster)
      = some (.isFalse .Terminal (some (ascii ("b")))) ∧
    (reconcile workingGateway [] partialCluster).result = .TerminalFailure :=
  ⟨by decide,
    (reconcile_all_or_nothing workingGateway [] partialCluster partialResource
      [⟨ascii ("a"), ascii ("c1"), ascii ("k1"), ascii ("us-east-1")⟩]
      ⟨ascii ("b"), ascii ("garbage"), ascii ("k1"), ascii ("us-east-1")⟩ []
      (by decide) (by decide) (by decide) (by decide) (by decide) (by decide) (by decide)
      (by decide) (by decide)).1,
    by decide,
    (reconcile_all_or_nothing workingGateway [] partialCluster partialResource
      [⟨ascii ("a"), ascii ("c1"), ascii ("k1"), ascii ("us-east-1")⟩]
      ⟨ascii ("b"), ascii ("garbage"), ascii ("k1"), ascii ("us-east-1")⟩ []
      (by decide) (by decide) (by decide) (by decide) (by decide) (by decide) (by decide)
      (by decide) (by decide)).2.2.1⟩

/-- C3 witness: a loader that fails for region "nowhere", and a gateway that
fails for key "bad" and otherwise answers with a fixed blob. -/
theorem EncryptString_contract_witness :
    (EncryptString testAws (ascii ("pw")) (ascii ("k1")) (ascii ("nowhere"))).bytes = none ∧
    (EncryptString testAws (ascii ("pw")) (ascii ("k1")) (ascii ("nowhere"))).err = some 1 ∧
    encryptCalls (EncryptString testAws (ascii ("pw")) (ascii ("k1")) (ascii ("nowhere"))).calls
      = [] ∧
    (EncryptString testAws (ascii ("pw")) (ascii ("bad")) (ascii ("us-east-1"))).err = some 2 ∧
    (EncryptString testAws (ascii ("pw")) (ascii ("k1")) (ascii ("us-east-1"))).bytes
      = some [1, 2, 3] :=
  ⟨((EncryptString_contract testAws (ascii ("pw")) (ascii ("k1")) (ascii ("nowhere"))).1 1
      rfl).1,
    by decide, by decide, by decide, by decide⟩

/-- C4 witness: "warn" gives level Info without source locations. -/
theorem getLogger_level_selection_witness :
    (getLogger id (ascii ("warn"))).Level = LevelInfo ∧
    (getLogger id (ascii ("warn"))).AddSource = false :=
  ((getLogger_level_selection id).1 (ascii ("warn"))).2 (by decide)

end KmsSecrets
